import Mathlib

/-!
Verification of the `configgle` copy-on-write proxy (`configgle/copy_on_write.py`)
and object-tree traversal engine (`configgle/traverse.py`).

The Python object graph is shallowly embedded as an explicit heap: a list of
objects indexed by address (`id()` in Python becomes the list index); an object
stores its attribute map (`__dict__`), its item map (sequence/mapping contents,
keyed by the `repr` of the item key), and an optional finalize capability.
Proxy nodes (`CopyOnWrite` instances) live in a second list, mirroring the
`__wrapped__`, `_self_parents`, `_self_children`, `_self_is_copy` and
`_self_is_finalized` fields.  All recursion in the source is modelled with an
explicit fuel parameter so that every definition is structurally recursive and
kernel-computable; `none` means either a Python exception or fuel exhaustion.
-/

namespace Configgle

/-! ### Association-list maps

Python `dict`s keyed by strings.  `setKey` on an existing key replaces the
binding in place and otherwise appends, matching insertion-order semantics of
Python dictionaries; `delKey` removes the binding (`dict.pop`). -/

def lookupKey : List (String × Nat) → String → Option Nat
  | [], _ => none
  | (k', v) :: t, k => if k' = k then some v else lookupKey t k

def setKey : List (String × Nat) → String → Nat → List (String × Nat)
  | [], k, v => [(k, v)]
  | (k', v') :: t, k, v => if k' = k then (k, v) :: t else (k', v') :: setKey t k v

def delKey : List (String × Nat) → String → List (String × Nat)
  | [], _ => []
  | (k', v') :: t, k => if k' = k then t else (k', v') :: delKey t k

/-! ### Heap objects

`attrs` is the object's attribute store (`getattr`/`setattr`/`delattr`),
`items` its indexed contents (`obj[key]`, with the key already rendered by
`repr`), and `fin` the optional finalize capability: `some a` models a
zero-argument `finalize` method whose call returns the (pre-existing) value at
address `a`.  `copy.copy` duplicates the whole record (shallow copy). -/

structure Obj where
  attrs : List (String × Nat)
  items : List (String × Nat)
  fin : Option Nat := none
deriving Repr, DecidableEq

def setAttrObj (o : Obj) (k : String) (v : Nat) : Obj :=
  { o with attrs := setKey o.attrs k v }

def setItemObj (o : Obj) (k : String) (v : Nat) : Obj :=
  { o with items := setKey o.items k v }

/-! ### Proxy nodes and machine state

A `PNode` is one `CopyOnWrite` instance; `St` is the whole machine: the object
heap plus the proxy-node store.  `finLog` is pure instrumentation recording, in
order, the proxy node ids whose wrapped object had its `finalize` capability
invoked by `__exit__`; it is written by no other operation and read by none. -/

structure PNode where
  wrapped : Nat
  parents : List (Nat × String)
  children : List (String × Nat)
  is_copy : Bool
  is_finalized : Bool
deriving Repr, DecidableEq

structure St where
  heap : List Obj
  pn : List PNode
  finLog : List Nat := []
deriving Repr, DecidableEq

/-- `CopyOnWrite(wrapped)` on a root value at heap address `r`:
parent set empty, children empty, `is_copy`/`is_finalized` false. -/
def mkInit (heap : List Obj) (r : Nat) : St :=
  { heap := heap, pn := [⟨r, [], [], false, false⟩] }

/-- `set.add((parent, key))` on a parent set (no duplicates). -/
def addPair (l : List (Nat × String)) (p : Nat × String) : List (Nat × String) :=
  if p ∈ l then l else l ++ [p]

/-- `set.discard((parent, key))` on a parent set. -/
def dropPair (l : List (Nat × String)) (p : Nat × String) : List (Nat × String) :=
  l.erase p

/-- Is `key` one of the wrapt-internal attribute names handled by
`super().__setattr__` / `super().__delattr__` (outside this model)? -/
def isSelfKey (key : String) : Bool :=
  decide ("_self_".data <+: key.data)

/-! ### `CopyOnWrite._copy`

```
if self._self_is_copy: return self
for parent, _ in self._self_parents: parent._copy()
self.__wrapped__ = copy.copy(self.__wrapped__)
self._self_is_copy = True
for parent, key in self._self_parents:
    setattr(parent.__wrapped__, key, self.__wrapped__)
```
`copyStep fuel pid` performs `_copy` on node `pid`; the fuel bounds the
recursion depth through the parent graph (Python would raise `RecursionError`
on a cyclic parent graph; the model returns `none`). -/

def foldParents (f : Nat → St → Option St) : List (Nat × String) → St → Option St
  | [], st => some st
  | p :: ps, st => (f p.1 st).bind fun st' => foldParents f ps st'

/-- The final loop of `_copy`: `setattr(parent.__wrapped__, key, newAddr)` for
every `(parent, key)` in the parent set.  (Note the source uses attribute
assignment here even when `key` is a mangled `__item_...` cache key.)  The same
loop shape implements the parent-update in `__exit__`. -/
def setParentRefs : List (Nat × String) → Nat → St → Option St
  | [], _, st => some st
  | p :: ps, a, st =>
      (st.pn[p.1]?).bind fun pnd =>
      (st.heap[pnd.wrapped]?).bind fun pobj =>
      setParentRefs ps a { st with heap := st.heap.set pnd.wrapped (setAttrObj pobj p.2 a) }

def copyStepF (rec : Nat → St → Option St) (pid : Nat) (st : St) : Option St :=
  (st.pn[pid]?).bind fun nd =>
  if nd.is_copy then
    some st
  else
    (foldParents rec nd.parents st).bind fun st1 =>
    (st1.pn[pid]?).bind fun nd' =>
    (st1.heap[nd'.wrapped]?).bind fun obj =>
    setParentRefs nd'.parents st1.heap.length
      { st1 with
        heap := st1.heap ++ [obj],
        pn := st1.pn.set pid { nd' with wrapped := st1.heap.length, is_copy := true } }

def copyStep : Nat → Nat → St → Option St
  | 0 => fun _ _ => none
  | fuel + 1 => copyStepF (copyStep fuel)

/-! ### `CopyOnWrite.__getattr__`

Returns the cached child wrapper, or creates a new `CopyOnWrite(actual,
parent=self, key=key)` and caches it.  `getattr` on a missing attribute raises
(`none`). -/

def cowGetattr (pid : Nat) (key : String) (st : St) : Option (St × Nat) :=
  if isSelfKey key then none
  else
    (st.pn[pid]?).bind fun nd =>
    match lookupKey nd.children key with
    | some cid => some (st, cid)
    | none =>
        (st.heap[nd.wrapped]?).bind fun obj =>
        (lookupKey obj.attrs key).bind fun actual =>
        some ({ st with
                pn := (st.pn.set pid { nd with children := setKey nd.children key st.pn.length }) ++
                  [⟨actual, [(pid, key)], [], false, false⟩] },
              st.pn.length)

/-- The value assigned through the proxy: a plain heap address, or another
`CopyOnWrite` proxy node. -/
inductive PVal where
  | addr (a : Nat)
  | prox (p : Nat)
deriving Repr, DecidableEq

/-! ### `CopyOnWrite.__setattr__`

If the value is a proxy, unwrap it, cache it as the child at `key`, and add
`(self, key)` to its parent set; otherwise drop any cached child at `key`.
Then `self._copy()` and `setattr(self.__wrapped__, key, actual_value)`. -/

def cowSetattr (fuel : Nat) (pid : Nat) (key : String) (v : PVal) (st : St) : Option St :=
  if isSelfKey key ∨ key = "__wrapped__" then none
  else
    (st.pn[pid]?).bind fun nd =>
    (match v with
      | .prox pv =>
          (st.pn[pv]?).bind fun pvnd =>
          (let stA : St := { st with pn := st.pn.set pid { nd with children := setKey nd.children key pv } }
           (stA.pn[pv]?).bind fun pvnd' =>
           some (pvnd.wrapped,
             { stA with pn := stA.pn.set pv { pvnd' with parents := addPair pvnd'.parents (pid, key) } }))
      | .addr a =>
          some (a, { st with pn := st.pn.set pid { nd with children := delKey nd.children key } })).bind
      fun res =>
    (copyStep fuel pid res.2).bind fun st2 =>
    (st2.pn[pid]?).bind fun nd2 =>
    (st2.heap[nd2.wrapped]?).bind fun obj =>
    some { st2 with heap := st2.heap.set nd2.wrapped (setAttrObj obj key res.1) }

/-! ### `CopyOnWrite.__delattr__`

Pop the cached child at `key` (discarding its back-reference to us), then
`self._copy()` and `delattr(self.__wrapped__, key)` (raising if absent). -/

def cowDelattr (fuel : Nat) (pid : Nat) (key : String) (st : St) : Option St :=
  if isSelfKey key then none
  else
    (st.pn[pid]?).bind fun nd =>
    (match lookupKey nd.children key with
      | some cid =>
          (let stA : St := { st with pn := st.pn.set pid { nd with children := delKey nd.children key } }
           (stA.pn[cid]?).bind fun cnd =>
           some { stA with pn := stA.pn.set cid { cnd with parents := dropPair cnd.parents (pid, key) } })
      | none => some st).bind fun st1 =>
    (copyStep fuel pid st1).bind fun st2 =>
    (st2.pn[pid]?).bind fun nd2 =>
    (st2.heap[nd2.wrapped]?).bind fun obj =>
    match lookupKey obj.attrs key with
    | none => none
    | some _ => some { st2 with heap := st2.heap.set nd2.wrapped { obj with attrs := delKey obj.attrs key } }

/-- Item accesses are cached under `f"__item_{key!r}"`; the model takes `key`
already rendered by `repr`. -/
def itemCacheKey (key : String) : String := "__item_" ++ key

/-! ### `CopyOnWrite.__getitem__` -/

def cowGetitem (pid : Nat) (key : String) (st : St) : Option (St × Nat) :=
  (st.pn[pid]?).bind fun nd =>
  match lookupKey nd.children (itemCacheKey key) with
  | some cid => some (st, cid)
  | none =>
      (st.heap[nd.wrapped]?).bind fun obj =>
      (lookupKey obj.items key).bind fun actual =>
      some ({ st with
              pn := (st.pn.set pid
                  { nd with children := setKey nd.children (itemCacheKey key) st.pn.length }) ++
                [⟨actual, [(pid, itemCacheKey key)], [], false, false⟩] },
            st.pn.length)

/-! ### `CopyOnWrite.__setitem__`

Unwraps a proxy value but — unlike `__setattr__` — registers no parent link,
and unconditionally pops the cached child at the item cache key.  Then
`self._copy()` and `self.__wrapped__[key] = actual_value`. -/

def cowSetitem (fuel : Nat) (pid : Nat) (key : String) (v : PVal) (st : St) : Option St :=
  (st.pn[pid]?).bind fun nd =>
  (match v with
    | .prox pv => (st.pn[pv]?).bind fun pvnd => some pvnd.wrapped
    | .addr a => some a).bind fun actual =>
  (copyStep fuel pid
      { st with pn := st.pn.set pid { nd with children := delKey nd.children (itemCacheKey key) } }).bind
    fun st2 =>
  (st2.pn[pid]?).bind fun nd2 =>
  (st2.heap[nd2.wrapped]?).bind fun obj =>
  some { st2 with heap := st2.heap.set nd2.wrapped (setItemObj obj key actual) }

/-! ### `CopyOnWrite.__delitem__` -/

def cowDelitem (fuel : Nat) (pid : Nat) (key : String) (st : St) : Option St :=
  (st.pn[pid]?).bind fun nd =>
  (match lookupKey nd.children (itemCacheKey key) with
    | some cid =>
        (let stA : St :=
            { st with pn := st.pn.set pid { nd with children := delKey nd.children (itemCacheKey key) } }
         (stA.pn[cid]?).bind fun cnd =>
         some { stA with
                pn := stA.pn.set cid { cnd with parents := dropPair cnd.parents (pid, itemCacheKey key) } })
    | none => some st).bind fun st1 =>
  (copyStep fuel pid st1).bind fun st2 =>
  (st2.pn[pid]?).bind fun nd2 =>
  (st2.heap[nd2.wrapped]?).bind fun obj =>
  match lookupKey obj.items key with
  | none => none
  | some _ => some { st2 with heap := st2.heap.set nd2.wrapped { obj with items := delKey obj.items key } }

/-! ### `CopyOnWrite.__call__`

```
for parent, key in self._self_parents:
    if key == "finalize": parent._self_is_finalized = True
for parent, _ in self._self_parents: parent._copy()
method = ... re-fetched from the first parent ...
result = method(*args, **kwargs)
return CopyOnWrite(result)
```
The behaviour of the invoked callable itself (an arbitrary Python function)
is outside the heap model: its return value is the parameter `res`, and the
result is wrapped in a fresh, unparented proxy node.  The callable cannot
touch any proxy bookkeeping. -/

def markFinalized : List (Nat × String) → St → St
  | [], st => st
  | (p, k) :: ps, st =>
      let st' :=
        if k = "finalize" then
          match st.pn[p]? with
          | some pnd => { st with pn := st.pn.set p { pnd with is_finalized := true } }
          | none => st
        else st
      markFinalized ps st'

def cowCall (fuel : Nat) (pid : Nat) (res : Nat) (st : St) : Option St :=
  (st.pn[pid]?).bind fun nd =>
  (foldParents (copyStep fuel) nd.parents (markFinalized nd.parents st)).bind fun st2 =>
  some { st2 with pn := st2.pn ++ [⟨res, [], [], false, false⟩] }

/-! ### `CopyOnWrite.__exit__`

```
for child in self._self_children.values():
    child.__exit__(...)
finalize_fn = getattr(self.__wrapped__, "finalize", None)
if not self._self_is_finalized and callable(finalize_fn):
    finalized = finalize_fn()
    for parent, key in self._self_parents:
        setattr(parent.__wrapped__, key, finalized)
```
Note: `__exit__` checks `_self_is_finalized` but never sets it.  A finalize
run is recorded in `finLog` (instrumentation only). -/

def foldChildren (f : Nat → St → Option St) : List (String × Nat) → St → Option St
  | [], st => some st
  | c :: cs, st => (f c.2 st).bind fun st' => foldChildren f cs st'

def cowExitF (rec : Nat → St → Option St) (pid : Nat) (st : St) : Option St :=
  (st.pn[pid]?).bind fun nd =>
  (foldChildren rec nd.children st).bind fun st1 =>
  (st1.pn[pid]?).bind fun nd' =>
  (st1.heap[nd'.wrapped]?).bind fun obj =>
  match obj.fin with
  | none => some st1
  | some a =>
      if nd'.is_finalized then some st1
      else setParentRefs nd'.parents a { st1 with finLog := st1.finLog ++ [pid] }

def cowExit : Nat → Nat → St → Option St
  | 0 => fun _ _ => none
  | fuel + 1 => cowExitF (cowExit fuel)

/-! ### One proxy operation

Every mutation/traversal entry point of the proxy, used to state the
`is_copy`-propagates-upward invariant. -/

inductive POp where
  | getA (pid : Nat) (key : String)
  | setA (pid : Nat) (key : String) (v : PVal)
  | delA (pid : Nat) (key : String)
  | getI (pid : Nat) (key : String)
  | setI (pid : Nat) (key : String) (v : PVal)
  | delI (pid : Nat) (key : String)
  | call (pid : Nat) (res : Nat)
  | exit (pid : Nat)
deriving Repr, DecidableEq

def applyOp (fuel : Nat) : POp → St → Option St
  | .getA pid k, st => (cowGetattr pid k st).map Prod.fst
  | .setA pid k v, st => cowSetattr fuel pid k v st
  | .delA pid k, st => cowDelattr fuel pid k st
  | .getI pid k, st => (cowGetitem pid k st).map Prod.fst
  | .setI pid k v, st => cowSetitem fuel pid k v st
  | .delI pid k, st => cowDelitem fuel pid k st
  | .call pid res, st => cowCall fuel pid res st
  | .exit pid, st => cowExit fuel pid st

/-! ### Finalization flag bookkeeping of a single proxied node

A focused embedding of the two code paths of `copy_on_write.py` that can run a
node's `finalize`, tracking that node's `_self_is_finalized` flag and the
number of times the underlying finalize operation has run.

* `explicitFinalize` is `cow.finalize()`: `__getattr__("finalize")` wraps the
  bound method in a child proxy whose parent entry is `(node, "finalize")`, and
  `__call__` then sets `parent._self_is_finalized = True` and invokes the
  method unconditionally.
* `exitFinalize` is the `__exit__` fragment quoted above: it runs the finalize
  capability only when the flag is unset, and leaves the flag unchanged. -/

structure FinSt where
  is_finalized : Bool
  runs : Nat
deriving Repr, DecidableEq

def explicitFinalize (s : FinSt) : FinSt :=
  { is_finalized := true, runs := s.runs + 1 }

def exitFinalize (hasFin : Bool) (s : FinSt) : FinSt :=
  if ¬ s.is_finalized ∧ hasFin then { s with runs := s.runs + 1 } else s

inductive FinEvent where
  | explicitCall
  | sessionExit
deriving Repr, DecidableEq

def runFinEvents (hasFin : Bool) : List FinEvent → FinSt → FinSt
  | [], s => s
  | .explicitCall :: es, s => runFinEvents hasFin es (explicitFinalize s)
  | .sessionExit :: es, s => runFinEvents hasFin es (exitFinalize hasFin s)

/-! ### Object-tree traversal engine (`configgle/traverse.py`)

Values are again heap cells; `VNode.vint` is an atomic leaf (a Python `int`:
not a `Sequence`/`Mapping`/`Set`, no `__slots__`, no `__dict__`, so the
dispatch in `recursively_iterate_over_object_descendants` yields it and
recurses into nothing), and `VNode.vlist` an ordered sequence whose elements
are visited with integer path segments in order.  The cycle guard `seen` is
the mutated set of visited `id()`s, threaded through the recursion; the
`recurse` predicate receives the path and the value's address.  Fuel bounds
the recursion depth; a result `some (pairs, seen)` is the finite list of
yielded `(path, value-address)` pairs together with the final `seen` set. -/

inductive VNode where
  | vint (n : Int)
  | vlist (elems : List Nat)
deriving Repr, DecidableEq

abbrev TravRes := List (List Nat × Nat) × List Nat

def travKids (f : List Nat → List Nat → Nat → Option TravRes) :
    List Nat → Nat → List Nat → List Nat → Option TravRes
  | [], _, _, seen => some ([], seen)
  | a :: as, i, path, seen =>
      (f seen (path ++ [i]) a).bind fun r1 =>
      (travKids f as (i + 1) path r1.2).bind fun r2 =>
      some (r1.1 ++ r2.1, r2.2)

def travGoF (h : List VNode) (rec : List Nat → Nat → Bool)
    (recur : List Nat → List Nat → Nat → Option TravRes)
    (seen : List Nat) (path : List Nat) (addr : Nat) : Option TravRes :=
  if addr ∈ seen then some ([], seen)
  else
    let seen1 := addr :: seen
    if rec path addr then
      match h[addr]? with
      | none => none
      | some (.vint _) => some ([(path, addr)], seen1)
      | some (.vlist elems) =>
          (travKids recur elems 0 path seen1).bind fun r =>
          some ((path, addr) :: r.1, r.2)
    else some ([], seen1)

/-- `recursively_iterate_over_object_descendants(value, recurse=..., seen=...,
path=...)`, restricted to integer and sequence values. -/
def recursivelyIterateOverObjectDescendants (h : List VNode) (rec : List Nat → Nat → Bool) :
    Nat → List Nat → List Nat → Nat → Option TravRes
  | 0 => fun _ _ _ => none
  | fuel + 1 => travGoF h rec (recursivelyIterateOverObjectDescendants h rec fuel)

/-! ### Path-pattern matcher (`configgle/traverse.py`)

The source compiles the pattern to an anchored regular expression over the
dot-joined path string:
```
parts = pattern.split(".")
regex_parts = [r"[^.]+" if part == "*" else re.escape(part) for part in parts]
regex_pattern = r"\.".join(regex_parts)
if pattern.endswith(".*") or "*" in pattern:
    regex_pattern = f"^{regex_pattern}$"
else:
    regex_pattern = f"^{regex_pattern}(?:\\.|$)"
```
Since the joined parts are separated by literal dots and neither `[^.]+` nor an
escaped literal part can match a dot, the anchored regex `^p1\.…\.pn$` matches
`path_str` exactly when `path_str.split(".")` has the same number of segments
and each pattern part matches its segment — `*` any non-empty segment, a
literal part by string equality.  The unanchored variant
`^pattern(?:\.|$)` matches exactly when `path_str == pattern` or `path_str`
starts with `pattern + "."`.  The embedding below uses that segment-wise
reading directly; string splitting and prefix tests are implemented
structurally over `String.data` so everything kernel-computes. -/

/-- `s.split(sep)` on character lists (Python `str.split` with a one-character
separator: `"".split(".") == [""]`, `"a.".split(".") == ["a", ""]`). -/
def chSplit (sep : Char) : List Char → List (List Char)
  | [] => [[]]
  | c :: cs =>
      let r := chSplit sep cs
      if c = sep then [] :: r
      else
        match r with
        | [] => [[c]]
        | h :: t => (c :: h) :: t

def pySplit (s : String) (sep : Char) : List String :=
  (chSplit sep s.data).map (fun l => { data := l })

/-- Does the character list `s` start with `p`? -/
def startsWithL : List Char → List Char → Bool
  | _, [] => true
  | [], _ :: _ => false
  | c :: cs, d :: ds => c = d && startsWithL cs ds

def pyStartsWith (s p : String) : Bool := startsWithL s.data p.data

def pyEndsWith (s p : String) : Bool := startsWithL s.data.reverse p.data.reverse

def containsStar (s : String) : Bool := s.data.any (· = '*')

/-- `".".join(parts)`. -/
def joinDots : List String → String
  | [] => ""
  | [s] => s
  | s :: t => s ++ "." ++ joinDots t

/-- One pattern part against one path segment under the anchored regex:
`*` compiles to `[^.]+` (any non-empty segment), anything else to its
`re.escape`d literal. -/
def segMatch (part seg : String) : Bool :=
  if part = "*" then seg ≠ "" else part = seg

def segsMatch : List String → List String → Bool
  | [], [] => true
  | [], _ :: _ => false
  | _ :: _, [] => false
  | p :: ps, s :: ss => segMatch p s && segsMatch ps ss

/-- `path_matches_pattern(path, pattern)` with the path already dot-joined
(for a tuple path the source first joins `str(p)` of the segments with
dots). -/
def pathMatchesPattern (pathStr pattern : String) : Bool :=
  if pattern = "**" then true
  else
    let parts := pySplit pattern '.'
    if pyEndsWith pattern ".*" || containsStar pattern then
      segsMatch parts (pySplit pathStr '.')
    else
      pathStr = pattern || pyStartsWith pathStr (pattern ++ ".")

/-- `pattern[:-2]` (used only when the pattern ends in `".*"`). -/
def dropLast2 (s : String) : String := { data := s.data.dropLast.dropLast }

/-- `all(part == "*" or (i < len(path_parts) and part == path_parts[i]) for
i, part in enumerate(parts[:len(path_parts)]))` — after the truncation the
index guard is always true, leaving a pairwise test. -/
def prefixParts : List String → List String → Bool
  | [], _ => true
  | _ :: _, [] => true
  | p :: ps, s :: ss => (p = "*" || p = s) && prefixParts ps ss

/-- `could_path_lead_to_pattern(path_str, pattern)`. -/
def couldPathLeadToPattern (pathStr pattern : String) : Bool :=
  if pathMatchesPattern pathStr pattern then true
  else
    let pathParts := pySplit pathStr '.'
    if pyEndsWith pattern ".*" then
      let pre := dropLast2 pattern
      pathStr = pre || pyStartsWith pathStr (pre ++ ".")
    else if containsStar pattern then
      let parts := pySplit pattern '.'
      if pathParts.length ≤ parts.length then
        prefixParts (parts.take pathParts.length) pathParts
      else
        (List.range (pathParts.length - parts.length + 1)).any fun i =>
          pathMatchesPattern (joinDots (pathParts.take (i + parts.length))) pattern
    else
      pyStartsWith pattern (pathStr ++ ".")

/-- `should_recurse_for_patterns(path, include, exclude)`; the path is modelled
as its list of already-stringified segments (`str(p)` applied by the source
before joining), the include set as `Option (List String)` (`None` = include
all) and the exclude set as a list. -/
def shouldRecurseForPatterns (path : List String) (inc : Option (List String))
    (exclude : List String) : Bool :=
  if path = [] then true
  else
    let pathStr := joinDots path
    if exclude.any (fun p => pathMatchesPattern pathStr p) then false
    else
      match inc with
      | none => true
      | some incs => incs.any (fun p => couldPathLeadToPattern pathStr p)

/-! ## Basic lemmas about the association-list maps -/

theorem lookupKey_setKey_self (l : List (String × Nat)) (k : String) (v : Nat) :
    lookupKey (setKey l k v) k = some v := by
  induction l with
  | nil => simp [setKey, lookupKey]
  | cons p t ih =>
      by_cases h : p.1 = k
      · simp [setKey, h, lookupKey]
      · simp [setKey, h, lookupKey, ih]

theorem lookupKey_setKey_ne (l : List (String × Nat)) (k k' : String) (v : Nat)
    (h : k ≠ k') : lookupKey (setKey l k v) k' = lookupKey l k' := by
  induction l with
  | nil => simp [setKey, lookupKey, h]
  | cons p t ih =>
      by_cases hp : p.1 = k
      · simp [setKey, hp, lookupKey, h]
      · simp only [setKey, hp, if_false]
        by_cases hp' : p.1 = k'
        · simp [lookupKey, hp']
        · simp [lookupKey, hp', ih]

theorem lookupKey_delKey_self (l : List (String × Nat)) (k : String)
    (hl : lookupKey l k = none) : lookupKey (delKey l k) k = none := by
  induction l with
  | nil => simp [delKey, lookupKey]
  | cons p t ih =>
      by_cases hp : p.1 = k
      · simp [lookupKey, hp] at hl
      · simp only [lookupKey, hp, if_false] at hl
        simp [delKey, hp, lookupKey, ih hl]

theorem lookupKey_eq_none_of_not_mem (l : List (String × Nat)) (k : String)
    (h : k ∉ l.map Prod.fst) : lookupKey l k = none := by
  induction l with
  | nil => simp [lookupKey]
  | cons p t ih =>
      simp only [List.map_cons, List.mem_cons, not_or] at h
      by_cases hp : p.1 = k
      · exact absurd hp.symm h.1
      · simp [lookupKey, hp, ih h.2]

/-- A `dict` never holds duplicate keys, so popping a key really removes it. -/
theorem lookupKey_delKey_nodup (l : List (String × Nat)) (k : String)
    (h : (l.map Prod.fst).Nodup) : lookupKey (delKey l k) k = none := by
  induction l with
  | nil => simp [delKey, lookupKey]
  | cons p t ih =>
      simp only [List.map_cons, List.nodup_cons] at h
      by_cases hp : p.1 = k
      · simp only [delKey, hp, if_true]
        exact lookupKey_eq_none_of_not_mem t k (by rw [← hp]; exact h.1)
      · simp [delKey, hp, lookupKey, ih h.2]

/-! ## Structural lemmas about `_copy`

`copyStep` only rewrites `wrapped`/`is_copy` of proxy nodes: the node count,
every node's `parents`, `children` and `is_finalized` are untouched, and
`is_copy` only ever turns true.  `PnShape st st'` packages this. -/

def PnShape (st st' : St) : Prop :=
  st'.pn.length = st.pn.length ∧
  ∀ (q : Nat) (nd : PNode), st.pn[q]? = some nd → ∃ nd' : PNode, st'.pn[q]? = some nd' ∧
    nd'.parents = nd.parents ∧ nd'.children = nd.children ∧
    nd'.is_finalized = nd.is_finalized ∧ (nd.is_copy = true → nd'.is_copy = true)

theorem pnShape_refl (st : St) : PnShape st st := by
  refine ⟨rfl, fun q nd h => ⟨nd, h, rfl, rfl, rfl, fun hc => hc⟩⟩

theorem pnShape_trans {s1 s2 s3 : St} (h12 : PnShape s1 s2) (h23 : PnShape s2 s3) :
    PnShape s1 s3 := by
  obtain ⟨hl12, hf12⟩ := h12
  obtain ⟨hl23, hf23⟩ := h23
  refine ⟨hl23.trans hl12, fun q nd h => ?_⟩
  obtain ⟨nd2, h2, hp2, hc2, hfin2, hcp2⟩ := hf12 q nd h
  obtain ⟨nd3, h3, hp3, hc3, hfin3, hcp3⟩ := hf23 q nd2 h2
  exact ⟨nd3, h3, hp3.trans hp2, hc3.trans hc2, hfin3.trans hfin2,
    fun hc => hcp3 (hcp2 hc)⟩

theorem pnShape_of_pn_eq {s1 s2 : St} (h : s2.pn = s1.pn) : PnShape s1 s2 := by
  refine ⟨by rw [h], fun q nd hq => ⟨nd, by rw [h]; exact hq, rfl, rfl, rfl, fun hc => hc⟩⟩

theorem setParentRefs_pn (ps : List (Nat × String)) (a : Nat) (st st' : St)
    (h : setParentRefs ps a st = some st') : st'.pn = st.pn := by
  induction ps generalizing st with
  | nil => simp only [setParentRefs, Option.some.injEq] at h; rw [← h]
  | cons p t ih =>
      simp only [setParentRefs, Option.bind_eq_some] at h
      obtain ⟨pnd, -, pobj, -, hrec⟩ := h
      exact ih { st with heap := st.heap.set pnd.wrapped (setAttrObj pobj p.2 a) } hrec

theorem foldParents_shape (f : Nat → St → Option St)
    (hf : ∀ pid st st', f pid st = some st' → PnShape st st') :
    ∀ ps st st', foldParents f ps st = some st' → PnShape st st' := by
  intro ps
  induction ps with
  | nil => intro st st' h; simp only [foldParents, Option.some.injEq] at h; rw [← h]; exact pnShape_refl st
  | cons p t ih =>
      intro st st' h
      simp only [foldParents, Option.bind_eq_some] at h
      obtain ⟨st1, h1, hrec⟩ := h
      exact pnShape_trans (hf _ _ _ h1) (ih _ _ hrec)

theorem copyStep_shape :
    ∀ fuel pid st st', copyStep fuel pid st = some st' → PnShape st st' := by
  intro fuel
  induction fuel with
  | zero => intro pid st st' h; exact absurd h (by simp [copyStep])
  | succ fuel ih =>
      intro pid st st' h
      rw [show copyStep (fuel + 1) = copyStepF (copyStep fuel) from rfl] at h
      simp only [copyStepF, Option.bind_eq_some] at h
      obtain ⟨nd, hnd, h⟩ := h
      by_cases hc : nd.is_copy
      · rw [if_pos hc] at h
        cases h; exact pnShape_refl _
      · rw [if_neg hc] at h
        simp only [Option.bind_eq_some] at h
        obtain ⟨st1, h1, nd', hnd', obj, hobj, hrefs⟩ := h
        have s1 : PnShape st st1 := foldParents_shape _ ih _ _ _ h1
        set st2 : St := { st1 with heap := st1.heap ++ [obj] } with hst2
        set nd2 : PNode := { nd' with wrapped := st1.heap.length, is_copy := true } with hnd2
        set st3 : St := { st2 with pn := st2.pn.set pid nd2 } with hst3
        have s3 : PnShape st1 st3 := by
          constructor
          · simp [hst3, hst2]
          · intro q nq hq
            by_cases hqp : q = pid
            · subst hqp
              have : nq = nd' := by
                have : st1.pn[q]? = some nd' := hnd'
                rw [hq] at this; exact (Option.some.injEq _ _).mp this
              subst this
              refine ⟨nd2, ?_, rfl, rfl, rfl, fun _ => rfl⟩
              have hlt : q < st2.pn.length := by
                have := List.getElem?_eq_some_iff.mp hq
                simpa [hst2] using this.1
              simp [hst3, List.getElem?_set_self hlt, hnd2]
            · refine ⟨nq, ?_, rfl, rfl, rfl, fun hcc => hcc⟩
              simp [hst3, hst2, List.getElem?_set_ne (fun he => hqp he.symm)]
              exact hq
        have spn : st'.pn = st3.pn := setParentRefs_pn _ _ _ _ hrefs
        exact pnShape_trans s1 (pnShape_trans s3 (pnShape_of_pn_eq spn))

/-- After a successful `_copy`, the target node is marked `is_copy`. -/
theorem copyStep_copied :
    ∀ fuel pid st st', copyStep fuel pid st = some st' →
      ∀ nd', st'.pn[pid]? = some nd' → nd'.is_copy = true := by
  intro fuel
  induction fuel with
  | zero => intro pid st st' h; exact absurd h (by simp [copyStep])
  | succ fuel _ =>
      intro pid st st' h nd' hnd'
      rw [show copyStep (fuel + 1) = copyStepF (copyStep fuel) from rfl] at h
      simp only [copyStepF, Option.bind_eq_some] at h
      obtain ⟨nd, hnd, h⟩ := h
      by_cases hc : nd.is_copy
      · rw [if_pos hc] at h
        cases h
        rw [hnd] at hnd'
        cases hnd'; exact hc
      · rw [if_neg hc] at h
        simp only [Option.bind_eq_some] at h
        obtain ⟨st1, h1, nd1, hnd1, obj, hobj, hrefs⟩ := h
        have spn := setParentRefs_pn _ _ _ _ hrefs
        have hlt : pid < st1.pn.length := by
          have := List.getElem?_eq_some_iff.mp hnd1
          exact this.1
        rw [spn] at hnd'
        simp only [List.getElem?_set_self hlt] at hnd'
        cases hnd'; rfl

/-- `_copy` on an already-copied node is the identity on the whole state. -/
theorem copyStep_already (fuel pid : Nat) (st st' : St) (nd : PNode)
    (hnd : st.pn[pid]? = some nd) (hc : nd.is_copy = true)
    (h : copyStep fuel pid st = some st') : st' = st := by
  cases fuel with
  | zero => exact absurd h (by simp [copyStep])
  | succ fuel =>
      rw [show copyStep (fuel + 1) = copyStepF (copyStep fuel) from rfl] at h
      simp only [copyStepF, hnd, Option.some_bind, hc, if_true, Option.some.injEq] at h
      exact h.symm

theorem getElem?_lt {α : Type} (l : List α) (i : Nat) (a : α) (h : l[i]? = some a) :
    i < l.length :=
  (List.getElem?_eq_some_iff.mp h).1

/-! ## Behaviour of a single write through the proxy -/

/-- `__setattr__` with a proxy value: the value is unwrapped, cached as the
child at `key`, and the target node is registered as an additional parent of
the value's proxy node; the unwrapped value is what lands in the (copied)
wrapped object.  (`pid ≠ pv` rules out `cow.x = cow`, on which the source
recurses without bound.) -/
theorem cowSetattr_prox_spec (fuel pid : Nat) (key : String) (pv : Nat) (st st' : St)
    (hne : pid ≠ pv) (h : cowSetattr fuel pid key (.prox pv) st = some st') :
    ∃ pvnd pvnd' nd' : PNode,
      st.pn[pv]? = some pvnd ∧ st'.pn[pv]? = some pvnd' ∧
      pvnd'.parents = addPair pvnd.parents (pid, key) ∧
      st'.pn[pid]? = some nd' ∧ lookupKey nd'.children key = some pv ∧
      ∃ obj' : Obj, st'.heap[nd'.wrapped]? = some obj' ∧
        lookupKey obj'.attrs key = some pvnd.wrapped := by
  simp only [cowSetattr] at h
  split at h
  · exact absurd h (by simp)
  · simp only [Option.bind_eq_some, Option.some.injEq] at h
    obtain ⟨nd, hnd, res, ⟨pvnd, hpvnd, pvnd', hpvnd', hres⟩, st2, hcopy, nd2, hnd2, obj, hobj, hfin⟩ := h
    subst hres
    subst hfin
    rw [List.getElem?_set_ne hne] at hpvnd'
    rw [hpvnd] at hpvnd'
    cases hpvnd'
    have hshape := copyStep_shape fuel pid _ st2 hcopy
    have hpidlt : pid < st.pn.length := getElem?_lt _ _ _ hnd
    have hpvlt : pv < st.pn.length := getElem?_lt _ _ _ hpvnd
    -- the pv node before the copy step
    have hpvB : ((st.pn.set pid { nd with children := setKey nd.children key pv }).set pv
        { pvnd with parents := addPair pvnd.parents (pid, key) })[pv]? =
        some { pvnd with parents := addPair pvnd.parents (pid, key) } := by
      rw [List.getElem?_set_self]
      simpa using hpvlt
    -- the pid node before the copy step
    have hpidB : ((st.pn.set pid { nd with children := setKey nd.children key pv }).set pv
        { pvnd with parents := addPair pvnd.parents (pid, key) })[pid]? =
        some { nd with children := setKey nd.children key pv } := by
      rw [List.getElem?_set_ne (fun he => hne he.symm), List.getElem?_set_self hpidlt]
    obtain ⟨pvnd2, hpvnd2, hpvpar, -, -, -⟩ := hshape.2 pv _ hpvB
    obtain ⟨nd2', hnd2', -, hchild, -, -⟩ := hshape.2 pid _ hpidB
    rw [hnd2] at hnd2'
    cases hnd2'
    refine ⟨pvnd, pvnd2, nd2, hpvnd, hpvnd2, by simpa using hpvpar, hnd2, ?_, ?_⟩
    · rw [hchild]
      exact lookupKey_setKey_self _ _ _
    · refine ⟨setAttrObj obj key pvnd.wrapped, ?_, ?_⟩
      · have hlt : nd2.wrapped < st2.heap.length := getElem?_lt _ _ _ hobj
        simp [List.getElem?_set_self hlt]
      · exact lookupKey_setKey_self _ _ _

/-- `__setattr__` with a non-proxy value invalidates any cached child proxy at
that key (the target's `children` dict has no duplicate keys, as Python dicts
cannot). -/
theorem cowSetattr_addr_spec (fuel pid : Nat) (key : String) (a : Nat) (st st' : St)
    (nd : PNode) (hnd : st.pn[pid]? = some nd) (hnodup : (nd.children.map Prod.fst).Nodup)
    (h : cowSetattr fuel pid key (.addr a) st = some st') :
    ∃ nd' : PNode, st'.pn[pid]? = some nd' ∧ lookupKey nd'.children key = none := by
  simp only [cowSetattr] at h
  split at h
  · exact absurd h (by simp)
  · simp only [Option.bind_eq_some, Option.some.injEq] at h
    obtain ⟨nd0, hnd0, res, hres, st2, hcopy, nd2, hnd2, obj, hobj, hfin⟩ := h
    rw [hnd] at hnd0
    cases hnd0
    subst hres
    subst hfin
    have hshape := copyStep_shape fuel pid _ st2 hcopy
    have hpidlt : pid < st.pn.length := getElem?_lt _ _ _ hnd
    have hpidB : (st.pn.set pid { nd with children := delKey nd.children key })[pid]? =
        some { nd with children := delKey nd.children key } :=
      List.getElem?_set_self hpidlt
    obtain ⟨nd2', hnd2', -, hchild, -, -⟩ := hshape.2 pid _ hpidB
    rw [hnd2] at hnd2'
    cases hnd2'
    refine ⟨nd2, hnd2, ?_⟩
    rw [hchild]
    exact lookupKey_delKey_nodup _ _ hnodup

/-- `__setitem__`: the cached child at the item cache key is unconditionally
invalidated, and a proxy value is merely unwrapped — its proxy node's parent
set is left untouched. -/
theorem cowSetitem_spec (fuel pid : Nat) (key : String) (v : PVal) (st st' : St)
    (nd : PNode) (hnd : st.pn[pid]? = some nd) (hnodup : (nd.children.map Prod.fst).Nodup)
    (h : cowSetitem fuel pid key v st = some st') :
    (∃ nd' : PNode, st'.pn[pid]? = some nd' ∧
        lookupKey nd'.children (itemCacheKey key) = none) ∧
    ∀ pv, v = .prox pv →
      ∃ pvnd pvnd' : PNode, st.pn[pv]? = some pvnd ∧ st'.pn[pv]? = some pvnd' ∧
        pvnd'.parents = pvnd.parents := by
  simp only [cowSetitem, Option.bind_eq_some, Option.some.injEq] at h
  obtain ⟨nd0, hnd0, actual, hact, st2, hcopy, nd2, hnd2, obj, hobj, hfin⟩ := h
  rw [hnd] at hnd0
  cases hnd0
  subst hfin
  have hshape := copyStep_shape fuel pid _ st2 hcopy
  have hpidlt : pid < st.pn.length := getElem?_lt _ _ _ hnd
  have hpidB : (st.pn.set pid { nd with children := delKey nd.children (itemCacheKey key) })[pid]? =
      some { nd with children := delKey nd.children (itemCacheKey key) } :=
    List.getElem?_set_self hpidlt
  obtain ⟨nd2', hnd2', -, hchild, -, -⟩ := hshape.2 pid _ hpidB
  rw [hnd2] at hnd2'
  cases hnd2'
  constructor
  · refine ⟨nd2, hnd2, ?_⟩
    rw [hchild]
    exact lookupKey_delKey_nodup _ _ hnodup
  · rintro pv rfl
    simp only [Option.bind_eq_some, Option.some.injEq] at hact
    obtain ⟨pvnd, hpvnd, -⟩ := hact
    by_cases hpv : pv = pid
    · subst hpv
      rw [hnd] at hpvnd
      cases hpvnd
      obtain ⟨pvnd2, hpvnd2, hpar, -, -, -⟩ := hshape.2 pv _ hpidB
      have heq : pvnd2 = nd2 := by
        rw [hpvnd2] at hnd2
        exact Option.some.inj hnd2
      subst heq
      exact ⟨nd, pvnd2, hnd, hpvnd2, by simpa using hpar⟩
    · have hpvB : (st.pn.set pid
          { nd with children := delKey nd.children (itemCacheKey key) })[pv]? = some pvnd := by
        rw [List.getElem?_set_ne (fun he => hpv he.symm)]
        exact hpvnd
      obtain ⟨pvnd2, hpvnd2, hpar, -, -, -⟩ := hshape.2 pv _ hpvB
      exact ⟨pvnd, pvnd2, hpvnd, hpvnd2, hpar⟩

/-! ## Concrete scenarios used by the claims -/

/-- The self-referential list of `test_cycle_detection`: `data = [1, 2];
data.append(data)`.  Address 0 is the list (holding addresses 1, 2 and itself),
address 1 the int `1`, address 2 the int `2`. -/
def cycleHeap : List VNode := [.vlist [1, 2, 0], .vint 1, .vint 2]

/-- Is the value at `a` an integer? (`isinstance(v, int)`). -/
def isIntAddr (h : List VNode) (a : Nat) : Bool :=
  match h[a]? with
  | some (.vint _) => true
  | _ => false

/-- Finalize double-run scenario: the root object (address 0) has attribute
`x` pointing at address 1, whose object carries a finalize capability.  The
session grafts the child proxy under a second key (`cow.y = cow.x`) and then
exits. -/
def finHeap : List Obj := [⟨[("x", 1)], [], none⟩, ⟨[], [], some 1⟩]

def finSession : Option St :=
  (cowGetattr 0 "x" (mkInit finHeap 0)).bind fun r1 =>
  (cowSetattr 2 0 "y" (.prox r1.2) r1.1).bind fun st2 =>
  cowExit 2 0 st2

/-- State after `cow.x`: child node 1 wraps address 1, cached under `x`. -/
def finStA : St :=
  { heap := finHeap,
    pn := [⟨0, [], [("x", 1)], false, false⟩, ⟨1, [(0, "x")], [], false, false⟩] }

/-- State after `cow.y = cow.x`: the root was copied (address 2) and the child
node is cached under both `x` and `y`, with both back-references in its parent
set. -/
def finStB : St :=
  { heap := [⟨[("x", 1)], [], none⟩, ⟨[], [], some 1⟩, ⟨[("x", 1), ("y", 1)], [], none⟩],
    pn := [⟨2, [], [("x", 1), ("y", 1)], true, false⟩,
           ⟨1, [(0, "x"), (0, "y")], [], false, false⟩] }

/-- Set-item grafting scenario: a root proxy over address 0 (whose item `0`
holds address 1) together with an independent root proxy (node 1) over
address 1, as produced by `CopyOnWrite(root)` and `CopyOnWrite(other)`. -/
def setitemSt : St :=
  { heap := [⟨[], [("0", 1)], none⟩, ⟨[], [], none⟩],
    pn := [⟨0, [], [], false, false⟩, ⟨1, [], [], false, false⟩] }

def setitemRun : Option St :=
  (cowGetitem 0 "0" setitemSt).bind fun r1 =>
  cowSetitem 2 0 "0" (.prox 1) r1.1

/-! ## Claims -/

/-- C7 counterexample: on `data = [1, 2]; data.append(data)` with the default
always-true predicate and a fresh `seen` set, the engine does *not* yield
exactly `[((0,), 1), ((1,), 2)]`: the root pair `((), data)` is yielded first
(values are heap addresses; address 1 holds the int 1, address 2 the int 2,
address 0 the list itself). -/
theorem claim_C7_counterexample :
    ¬ (recursivelyIterateOverObjectDescendants cycleHeap (fun _ _ => true) 3 [] [] 0).map
        Prod.fst = some [([0], 1), ([1], 2)] := by
  decide

/-- C7 (amended): the traversal of the self-referential list terminates and
yields exactly `[((), data), ((0,), 1), ((1,), 2)]` — the claimed two integer
pairs are preceded by the root pair; restricting the yield to integer values
gives exactly `[((0,), 1), ((1,), 2)]` (which is what the test asserts after
its `isinstance(v, int)` filter). -/
theorem claim_C7 :
    (recursivelyIterateOverObjectDescendants cycleHeap (fun _ _ => true) 3 [] [] 0).map
        Prod.fst = some [([], 0), ([0], 1), ([1], 2)] ∧
    (recursivelyIterateOverObjectDescendants cycleHeap (fun _ _ => true) 3 [] [] 0).map
        (fun r => r.1.filter (fun pr => isIntAddr cycleHeap pr.2)) =
      some [([0], 1), ([1], 2)] := by
  constructor <;> decide

/-- C8: the four pattern-matching cases of the spec, exactly as stated. -/
theorem claim_C8 :
    pathMatchesPattern "key.0" "key.*" = true ∧
    pathMatchesPattern "key" "key.*" = false ∧
    pathMatchesPattern "embeddings.clip.features" "embeddings.*.features" = true ∧
    pathMatchesPattern "embeddings.clip.features.0" "embeddings.*.features" = false := by
  refine ⟨by decide, by decide, by decide, by decide⟩

/-- C10: `should_recurse_for_patterns` returns true on the empty path for every
include set and every exclude set — the source returns before consulting
either, so even an exclude pattern matching the empty path (such as `"**"`)
does not stop recursion into the traversal root. -/
theorem claim_C10 (inc : Option (List String)) (exclude : List String) :
    shouldRecurseForPatterns [] inc exclude = true := by
  simp [shouldRecurseForPatterns]

/-- Intermediate state of `setitemRun` after `cow[0]` (cached child node 2). -/
def stI1 : St :=
  { heap := [⟨[], [("0", 1)], none⟩, ⟨[], [], none⟩],
    pn := [⟨0, [], [("__item_0", 2)], false, false⟩, ⟨1, [], [], false, false⟩,
           ⟨1, [(0, "__item_0")], [], false, false⟩] }

/-- Final state of `setitemRun`. -/
def stI2 : St :=
  { heap := [⟨[], [("0", 1)], none⟩, ⟨[], [], none⟩, ⟨[], [("0", 1)], none⟩],
    pn := [⟨2, [], [], true, false⟩, ⟨1, [], [], false, false⟩,
           ⟨1, [(0, "__item_0")], [], false, false⟩] }

/-- C6 counterexample: a set-item write through the proxy whose assigned value
is itself a proxy (node 1) does *not* register the target node as a parent of
the value's node — its parent set stays empty — and the cached child at that
key is invalidated even though the value is a proxy.  This falsifies the
claim's set-item half at a concrete input. -/
theorem claim_C6_counterexample :
    ∃ st' : St, setitemRun = some st' ∧
      (∀ nd : PNode, st'.pn[1]? = some nd → nd.parents = []) ∧
      (∀ nd : PNode, st'.pn[0]? = some nd → lookupKey nd.children (itemCacheKey "0") = none) := by
  refine ⟨stI2, ?_, by decide, by decide⟩
  have g1 : cowGetitem 0 "0" setitemSt = some (stI1, 2) := rfl
  have g2 : cowSetitem 2 0 "0" (.prox 1) stI1 = some stI2 := rfl
  unfold setitemRun
  rw [g1, Option.some_bind]
  exact g2

/-- C6 (amended): a set-attribute write whose value is a proxy unwraps it,
caches it as the child at that key, and registers the target node as an
additional parent of the value's node, the unwrapped value being what is
assigned; a set-attribute write with a non-proxy value invalidates the cached
child at that key; a set-item write always invalidates the cached child at the
item cache key and, when the value is a proxy, merely unwraps it, leaving the
value node's parent set untouched. -/
theorem claim_C6 :
    (∀ (fuel pid : Nat) (key : String) (pv : Nat) (st st' : St), pid ≠ pv →
        cowSetattr fuel pid key (.prox pv) st = some st' →
        ∃ pvnd pvnd' nd' : PNode,
          st.pn[pv]? = some pvnd ∧ st'.pn[pv]? = some pvnd' ∧
          pvnd'.parents = addPair pvnd.parents (pid, key) ∧
          st'.pn[pid]? = some nd' ∧ lookupKey nd'.children key = some pv ∧
          ∃ obj' : Obj, st'.heap[nd'.wrapped]? = some obj' ∧
            lookupKey obj'.attrs key = some pvnd.wrapped) ∧
    (∀ (fuel pid : Nat) (key : String) (a : Nat) (st st' : St) (nd : PNode),
        st.pn[pid]? = some nd → (nd.children.map Prod.fst).Nodup →
        cowSetattr fuel pid key (.addr a) st = some st' →
        ∃ nd' : PNode, st'.pn[pid]? = some nd' ∧ lookupKey nd'.children key = none) ∧
    (∀ (fuel pid : Nat) (key : String) (v : PVal) (st st' : St) (nd : PNode),
        st.pn[pid]? = some nd → (nd.children.map Prod.fst).Nodup →
        cowSetitem fuel pid key v st = some st' →
        (∃ nd' : PNode, st'.pn[pid]? = some nd' ∧
            lookupKey nd'.children (itemCacheKey key) = none) ∧
        ∀ pv, v = .prox pv →
          ∃ pvnd pvnd' : PNode, st.pn[pv]? = some pvnd ∧ st'.pn[pv]? = some pvnd' ∧
            pvnd'.parents = pvnd.parents) :=
  ⟨cowSetattr_prox_spec, cowSetattr_addr_spec, cowSetitem_spec⟩

/-- Root proxy over a two-object heap used to witness `claim_C6`. -/
def wSt : St :=
  { heap := [⟨[("k", 1)], [("0", 1)], none⟩, ⟨[], [], none⟩],
    pn := [⟨0, [], [], false, false⟩, ⟨1, [], [], false, false⟩] }

def wOutA : St :=
  { heap := [⟨[("k", 1)], [("0", 1)], none⟩, ⟨[], [], none⟩, ⟨[("k", 1)], [("0", 1)], none⟩],
    pn := [⟨2, [], [("k", 1)], true, false⟩, ⟨1, [(0, "k")], [], false, false⟩] }

def wOutB : St :=
  { heap := [⟨[("k", 1)], [("0", 1)], none⟩, ⟨[], [], none⟩, ⟨[("k", 5)], [("0", 1)], none⟩],
    pn := [⟨2, [], [], true, false⟩, ⟨1, [], [], false, false⟩] }

def wOutC : St :=
  { heap := [⟨[("k", 1)], [("0", 1)], none⟩, ⟨[], [], none⟩, ⟨[("k", 1)], [("0", 1)], none⟩],
    pn := [⟨2, [], [], true, false⟩, ⟨1, [], [], false, false⟩] }

theorem claim_C6_witness :
    (∃ pvnd pvnd' nd' : PNode,
        wSt.pn[1]? = some pvnd ∧ wOutA.pn[1]? = some pvnd' ∧
        pvnd'.parents = addPair pvnd.parents (0, "k") ∧
        wOutA.pn[0]? = some nd' ∧ lookupKey nd'.children "k" = some 1 ∧
        ∃ obj' : Obj, wOutA.heap[nd'.wrapped]? = some obj' ∧
          lookupKey obj'.attrs "k" = some pvnd.wrapped) ∧
    (∃ nd' : PNode, wOutB.pn[0]? = some nd' ∧ lookupKey nd'.children "k" = none) ∧
    ((∃ nd' : PNode, wOutC.pn[0]? = some nd' ∧
        lookupKey nd'.children (itemCacheKey "0") = none) ∧
      ∀ pv, PVal.prox 1 = PVal.prox pv →
        ∃ pvnd pvnd' : PNode, wSt.pn[pv]? = some pvnd ∧ wOutC.pn[pv]? = some pvnd' ∧
          pvnd'.parents = pvnd.parents) :=
  ⟨claim_C6.1 2 0 "k" 1 wSt wOutA (by decide) rfl,
   claim_C6.2.1 2 0 "k" 5 wSt wOutB ⟨0, [], [], false, false⟩ (by decide) (by decide) rfl,
   claim_C6.2.2 2 0 "0" (.prox 1) wSt wOutC ⟨0, [], [], false, false⟩ (by decide) (by decide) rfl⟩

/-- C3 (code bug): in the session `finSession` — one scoped proxy over a root
whose attribute `x` holds an object exposing a finalize capability, where the
caller grafts that child under a second key (`cow.y = cow.x`) and then lets
session exit trigger finalization — the underlying finalize operation of node
1 runs twice (`finLog = [1, 1]`), because `__exit__` reaches the child through
both cached keys and checks `_self_is_finalized` without ever setting it. -/
theorem claim_C3 : finSession.map St.finLog = some [1, 1] := by
  have h1 : cowGetattr 0 "x" (mkInit finHeap 0) = some (finStA, 1) := rfl
  have h2 : cowSetattr 2 0 "y" (.prox 1) finStA = some finStB := rfl
  have h3 : cowExit 2 0 finStB = some { finStB with finLog := [1, 1] } := rfl
  unfold finSession
  rw [h1]
  simp only [Option.bind_eq_bind, Option.some_bind]
  rw [h2]
  simp only [Option.some_bind]
  rw [h3]
  rfl

/-! ## The copy-status invariant

If `is_copy` is true for a node then it is true for every node in its parent
set: a child is never privately copied while a parent still aliases the
original.  `copiedAt st i` says the node at `i` (if any) is a copy;
`WFparents` says parent references point at existing nodes (automatic for
every reachable state, since in Python they are references to live proxy
objects); `InvE st bad` is the invariant with parent references to `bad`
exempted — the shape in which the invariant survives the middle of a write
that has registered a new parent link to a node that `_copy` is about to
copy. -/

def copiedAt (st : St) (i : Nat) : Prop :=
  ∀ pnd : PNode, st.pn[i]? = some pnd → pnd.is_copy = true

instance (st : St) (i : Nat) : Decidable (copiedAt st i) :=
  match h : st.pn[i]? with
  | none => isTrue (fun pnd hp => absurd hp (by simp [h]))
  | some x =>
      if hx : x.is_copy = true then
        isTrue (fun pnd hp => by rw [h] at hp; cases hp; exact hx)
      else isFalse (fun hc => hx (hc x h))

def Inv (st : St) : Prop :=
  ∀ (q : Nat) (nd : PNode), st.pn[q]? = some nd → nd.is_copy = true →
    ∀ p ∈ nd.parents, copiedAt st p.1

instance (st : St) : Decidable (Inv st) :=
  decidable_of_iff
    (∀ nd ∈ st.pn, nd.is_copy = true → ∀ p ∈ nd.parents, copiedAt st p.1)
    (by
      constructor
      · intro h q nd hq
        exact h nd (List.getElem?_mem hq)
      · intro h nd hmem
        obtain ⟨i, hi, hie⟩ := List.getElem_of_mem hmem
        exact h i nd (by rw [List.getElem?_eq_getElem hi, hie]))

def InvE (st : St) (bad : Nat) : Prop :=
  ∀ (q : Nat) (nd : PNode), st.pn[q]? = some nd → nd.is_copy = true →
    ∀ p ∈ nd.parents, p.1 ≠ bad → copiedAt st p.1

def WFparents (st : St) : Prop :=
  ∀ nd ∈ st.pn, ∀ p ∈ nd.parents, p.1 < st.pn.length

instance (st : St) : Decidable (WFparents st) :=
  decidable_of_iff (∀ nd ∈ st.pn, ∀ p ∈ nd.parents, p.1 < st.pn.length) Iff.rfl

theorem inv_invE (st : St) (bad : Nat) (h : Inv st) : InvE st bad :=
  fun q nd hq hc p hp _ => h q nd hq hc p hp

theorem invE_inv (st : St) (bad : Nat) (h : InvE st bad)
    (hbad : copiedAt st bad) : Inv st := by
  intro q nd hq hc p hp
  by_cases hpb : p.1 = bad
  · rw [hpb]; exact hbad
  · exact h q nd hq hc p hp hpb

theorem copiedAt_congr {s1 s2 : St} (hpn : s2.pn = s1.pn) (i : Nat)
    (h : copiedAt s1 i) : copiedAt s2 i := by
  intro pnd hp
  rw [hpn] at hp
  exact h pnd hp

theorem inv_congr {s1 s2 : St} (hpn : s2.pn = s1.pn) (h : Inv s1) : Inv s2 := by
  intro q nd hq hc p hp
  rw [hpn] at hq
  exact copiedAt_congr hpn p.1 (h q nd hq hc p hp)

theorem invE_congr {s1 s2 : St} (bad : Nat) (hpn : s2.pn = s1.pn)
    (h : InvE s1 bad) : InvE s2 bad := by
  intro q nd hq hc p hp hpb
  rw [hpn] at hq
  exact copiedAt_congr hpn p.1 (h q nd hq hc p hp hpb)

theorem wf_congr {s1 s2 : St} (hpn : s2.pn = s1.pn) (h : WFparents s1) : WFparents s2 := by
  intro nd hmem p hp
  rw [hpn] at hmem
  rw [hpn]
  exact h nd hmem p hp

theorem pnShape_copiedAt {s1 s2 : St} (hs : PnShape s1 s2) (i : Nat)
    (h : copiedAt s1 i) : copiedAt s2 i := by
  intro pnd hp
  have hlt : i < s1.pn.length := by
    have := getElem?_lt _ _ _ hp
    rwa [hs.1] at this
  obtain ⟨nd', hnd', -, -, -, hmono⟩ := hs.2 i _ (List.getElem?_eq_getElem hlt)
  rw [hp] at hnd'
  cases hnd'
  exact hmono (h _ (List.getElem?_eq_getElem hlt))

theorem pnShape_wf {s1 s2 : St} (hs : PnShape s1 s2) (h : WFparents s1) : WFparents s2 := by
  intro nd hmem p hp
  obtain ⟨i, hi, hie⟩ := List.getElem_of_mem hmem
  have hilt : i < s1.pn.length := by rwa [← hs.1]
  obtain ⟨nd', hnd', hpar, -, -, -⟩ := hs.2 i _ (List.getElem?_eq_getElem hilt)
  rw [List.getElem?_eq_getElem hi, hie] at hnd'
  cases hnd'
  rw [hs.1]
  exact h _ (List.getElem?_mem (List.getElem?_eq_getElem hilt)) p (by rwa [← hpar])

/-- Replacing one node by a node with the same copy status and no new parent
links preserves the invariant. -/
theorem inv_set_mono (st : St) (j : Nat) (ndj ndj' : PNode)
    (hj : st.pn[j]? = some ndj) (hc : ndj'.is_copy = ndj.is_copy)
    (hsub : ∀ p ∈ ndj'.parents, p ∈ ndj.parents) (h : Inv st) :
    Inv { st with pn := st.pn.set j ndj' } := by
  have hjlt : j < st.pn.length := getElem?_lt _ _ _ hj
  have hcop : ∀ i : Nat, copiedAt st i → copiedAt { st with pn := st.pn.set j ndj' } i := by
    intro i hi pnd hp
    by_cases hij : i = j
    · subst hij
      rw [List.getElem?_set_self hjlt] at hp
      cases hp
      rw [hc]
      exact hi ndj hj
    · rw [List.getElem?_set_ne (fun he => hij he.symm)] at hp
      exact hi pnd hp
  intro q nd hq hcq p hp
  by_cases hqj : q = j
  · subst hqj
    rw [List.getElem?_set_self hjlt] at hq
    cases hq
    exact hcop p.1 (h q ndj hj (by rw [← hc]; exact hcq) p (hsub p hp))
  · rw [List.getElem?_set_ne (fun he => hqj he.symm)] at hq
    exact hcop p.1 (h q nd hq hcq p hp)

/-- Registering one extra parent link `(bad, k)` on a node degrades the
invariant only at `bad`. -/
theorem inv_set_addparent (st : St) (j : Nat) (ndj : PNode) (bad : Nat) (k : String)
    (hj : st.pn[j]? = some ndj) (h : Inv st) :
    InvE { st with pn := st.pn.set j { ndj with parents := addPair ndj.parents (bad, k) } }
      bad := by
  have hjlt : j < st.pn.length := getElem?_lt _ _ _ hj
  have hcop : ∀ i : Nat, copiedAt st i →
      copiedAt { st with pn := st.pn.set j { ndj with parents := addPair ndj.parents (bad, k) } } i := by
    intro i hi pnd hp
    by_cases hij : i = j
    · subst hij
      rw [List.getElem?_set_self hjlt] at hp
      cases hp
      exact hi ndj hj
    · rw [List.getElem?_set_ne (fun he => hij he.symm)] at hp
      exact hi pnd hp
  intro q nd hq hcq p hp hpb
  by_cases hqj : q = j
  · subst hqj
    rw [List.getElem?_set_self hjlt] at hq
    cases hq
    have hp' : p ∈ ndj.parents := by
      simp only [addPair] at hp
      split at hp
      · exact hp
      · rcases List.mem_append.mp hp with h' | h'
        · exact h'
        · simp only [List.mem_singleton] at h'
          subst h'
          exact absurd rfl hpb
    exact hcop p.1 (h q ndj hj hcq p hp')
  · rw [List.getElem?_set_ne (fun he => hqj he.symm)] at hq
    exact hcop p.1 (h q nd hq hcq p hp)

/-- Appending a non-copy node preserves the invariant, provided parent links
of existing nodes stay within the old store. -/
theorem inv_append_noncopy (st : St) (nd : PNode) (hwf : WFparents st)
    (hc : nd.is_copy = false) (h : Inv st) :
    Inv { st with pn := st.pn ++ [nd] } := by
  intro q ndq hq hcq p hp
  rcases Nat.lt_or_ge q st.pn.length with hlt | hge
  · rw [List.getElem?_append_left hlt] at hq
    have hplt : p.1 < st.pn.length :=
      hwf ndq (List.getElem?_mem hq) p hp
    intro pnd hpnd
    rw [List.getElem?_append_left hplt] at hpnd
    exact h q ndq hq hcq p hp pnd hpnd
  · rw [List.getElem?_append_right hge] at hq
    rcases Nat.lt_or_ge (q - st.pn.length) 1 with hlt1 | hge1
    · interval_cases hqe : q - st.pn.length
      · simp only [List.getElem?_cons_zero, Option.some.injEq] at hq
        subst hq
        rw [hc] at hcq
        exact absurd hcq (by simp)
    · rw [List.getElem?_eq_none (by simpa using hge1)] at hq
      exact absurd hq (by simp)

/-- After a successful parent-copy loop, every listed parent is a copy. -/
theorem foldParents_copied (fuel : Nat) :
    ∀ (ps : List (Nat × String)) (st st' : St),
      foldParents (copyStep fuel) ps st = some st' →
      ∀ p ∈ ps, copiedAt st' p.1 := by
  intro ps
  induction ps with
  | nil =>
      intro st st' h p hp
      exact absurd hp (by simp)
  | cons q t ih =>
      intro st st' h p hp
      simp only [foldParents, Option.bind_eq_some] at h
      obtain ⟨s1, h1, hrest⟩ := h
      rcases List.mem_cons.mp hp with he | ht
      · subst he
        have hc1 : copiedAt s1 p.1 := fun pnd hpnd =>
          copyStep_copied fuel p.1 st s1 h1 pnd hpnd
        exact pnShape_copiedAt
          (foldParents_shape _ (copyStep_shape fuel) t s1 st' hrest) _ hc1
      · exact ih s1 st' hrest p ht

theorem foldParents_invE (fuel : Nat) (bad : Nat)
    (ih : ∀ (pid : Nat) (st st' : St), copyStep fuel pid st = some st' →
      InvE st bad → InvE st' bad) :
    ∀ (ps : List (Nat × String)) (st st' : St),
      foldParents (copyStep fuel) ps st = some st' → InvE st bad → InvE st' bad := by
  intro ps
  induction ps with
  | nil =>
      intro st st' h hi
      simp only [foldParents, Option.some.injEq] at h
      rw [← h]
      exact hi
  | cons q t iht =>
      intro st st' h hi
      simp only [foldParents, Option.bind_eq_some] at h
      obtain ⟨s1, h1, hrest⟩ := h
      exact iht s1 st' hrest (ih q.1 st s1 h1 hi)

/-- `_copy` preserves the invariant-modulo-`bad`. -/
theorem copyStep_invE :
    ∀ (fuel : Nat) (pid : Nat) (st st' : St) (bad : Nat),
      copyStep fuel pid st = some st' → InvE st bad → InvE st' bad := by
  intro fuel
  induction fuel with
  | zero =>
      intro pid st st' bad h
      exact absurd h (by simp [copyStep])
  | succ fuel ih =>
      intro pid st st' bad h hinv
      rw [show copyStep (fuel + 1) = copyStepF (copyStep fuel) from rfl] at h
      simp only [copyStepF, Option.bind_eq_some] at h
      obtain ⟨nd, hnd, h⟩ := h
      by_cases hc : nd.is_copy
      · rw [if_pos hc] at h
        cases h
        exact hinv
      · rw [if_neg hc] at h
        simp only [Option.bind_eq_some] at h
        obtain ⟨st1, h1, nd', hnd', obj, hobj, hrefs⟩ := h
        have hinv1 : InvE st1 bad :=
          foldParents_invE fuel bad (fun p s s' => ih p s s' bad) nd.parents st st1 h1 hinv
        have hcopied : ∀ p ∈ nd.parents, copiedAt st1 p.1 :=
          fun p hp => foldParents_copied fuel nd.parents st st1 h1 p hp
        have hsh1 : PnShape st st1 := foldParents_shape _ (copyStep_shape fuel) _ _ _ h1
        obtain ⟨ndm, hndm, hparm, -, -, -⟩ := hsh1.2 pid nd hnd
        have hnd'eq : ndm = nd' := by
          rw [hndm] at hnd'
          exact Option.some.inj hnd'
        subst hnd'eq
        have hpidlt1 : pid < st1.pn.length := getElem?_lt _ _ _ hndm
        have hpn3 : st'.pn =
            st1.pn.set pid { ndm with wrapped := st1.heap.length, is_copy := true } :=
          setParentRefs_pn _ _ _ _ hrefs
        have hcop3 : ∀ i : Nat, copiedAt st1 i → copiedAt st' i := by
          intro i hi pnd hp
          rw [hpn3] at hp
          by_cases hij : i = pid
          · subst hij
            rw [List.getElem?_set_self hpidlt1] at hp
            cases hp
            rfl
          · rw [List.getElem?_set_ne (fun he => hij he.symm)] at hp
            exact hi pnd hp
        intro q ndq hq hcq p hp hpb
        rw [hpn3] at hq
        by_cases hqj : q = pid
        · subst hqj
          rw [List.getElem?_set_self hpidlt1] at hq
          cases hq
          have hp' : p ∈ nd.parents := by
            rw [← hparm]
            simpa using hp
          exact hcop3 p.1 (hcopied p hp')
        · rw [List.getElem?_set_ne (fun he => hqj he.symm)] at hq
          exact hcop3 p.1 (hinv1 q ndq hq hcq p hp hpb)

/-- `_copy` started from a state whose only invariant violations point at the
copied node itself re-establishes the full invariant. -/
theorem copyStep_inv (fuel pid : Nat) (st st' : St)
    (h : copyStep fuel pid st = some st') (hinv : InvE st pid) : Inv st' :=
  invE_inv st' pid (copyStep_invE fuel pid st st' pid h hinv)
    (fun pnd hp => copyStep_copied fuel pid st st' h pnd hp)

theorem wf_set_parents_sub (st : St) (j : Nat) (ndj ndj' : PNode)
    (hj : st.pn[j]? = some ndj) (hsub : ∀ p ∈ ndj'.parents, p ∈ ndj.parents)
    (h : WFparents st) : WFparents { st with pn := st.pn.set j ndj' } := by
  intro nd hmem p hp
  have hmem' : nd ∈ st.pn.set j ndj' := hmem
  obtain ⟨i, hi, hie⟩ := List.getElem_of_mem hmem'
  have hi' : i < st.pn.length := by simpa using hi
  show p.1 < (st.pn.set j ndj').length
  rw [List.length_set]
  by_cases hij : i = j
  · subst hij
    have hy : (st.pn.set i ndj')[i]? = some nd := by
      rw [List.getElem?_eq_getElem hi, hie]
    rw [List.getElem?_set_self hi'] at hy
    cases Option.some.inj hy
    exact h ndj (List.getElem?_mem hj) p (hsub p hp)
  · have hy : (st.pn.set j ndj')[i]? = some nd := by
      rw [List.getElem?_eq_getElem hi, hie]
    rw [List.getElem?_set_ne (fun he => hij he.symm)] at hy
    exact h nd (List.getElem?_mem hy) p hp

theorem markFinalized_len (ps : List (Nat × String)) (st : St) :
    (markFinalized ps st).pn.length = st.pn.length := by
  induction ps generalizing st with
  | nil => rfl
  | cons p t ih =>
      simp only [markFinalized]
      split
      · split
        · rw [ih]
          simp
        · rw [ih]
      · rw [ih]

theorem markFinalized_inv (ps : List (Nat × String)) (st : St) (h : Inv st) :
    Inv (markFinalized ps st) := by
  induction ps generalizing st with
  | nil => exact h
  | cons p t ih =>
      simp only [markFinalized]
      split
      · split
        · next pnd hpnd =>
            exact ih _ (inv_set_mono st p.1 pnd { pnd with is_finalized := true }
              hpnd rfl (fun q hq => hq) h)
        · exact ih _ h
      · exact ih _ h

theorem markFinalized_wf (ps : List (Nat × String)) (st : St) (h : WFparents st) :
    WFparents (markFinalized ps st) := by
  induction ps generalizing st with
  | nil => exact h
  | cons p t ih =>
      simp only [markFinalized]
      split
      · split
        · next pnd hpnd =>
            exact ih _ (wf_set_parents_sub st p.1 pnd { pnd with is_finalized := true }
              hpnd (fun q hq => hq) h)
        · exact ih _ h
      · exact ih _ h

theorem foldChildren_pn (f : Nat → St → Option St)
    (hf : ∀ (c : Nat) (st st' : St), f c st = some st' → st'.pn = st.pn) :
    ∀ (cs : List (String × Nat)) (st st' : St),
      foldChildren f cs st = some st' → st'.pn = st.pn := by
  intro cs
  induction cs with
  | nil =>
      intro st st' h
      simp only [foldChildren, Option.some.injEq] at h
      rw [← h]
  | cons c t ih =>
      intro st st' h
      simp only [foldChildren, Option.bind_eq_some] at h
      obtain ⟨s1, h1, hrest⟩ := h
      rw [ih s1 st' hrest, hf c.2 st s1 h1]

/-- `__exit__` never touches the proxy-node store. -/
theorem cowExit_pn :
    ∀ (fuel pid : Nat) (st st' : St), cowExit fuel pid st = some st' → st'.pn = st.pn := by
  intro fuel
  induction fuel with
  | zero =>
      intro pid st st' h
      exact absurd h (by simp [cowExit])
  | succ fuel ih =>
      intro pid st st' h
      rw [show cowExit (fuel + 1) = cowExitF (cowExit fuel) from rfl] at h
      simp only [cowExitF, Option.bind_eq_some] at h
      obtain ⟨nd, hnd, st1, h1, nd', hnd', obj, hobj, hm⟩ := h
      have hpn1 : st1.pn = st.pn := foldChildren_pn _ (ih) nd.children st st1 h1
      split at hm
      · cases hm
        exact hpn1
      · split at hm
        · cases hm
          exact hpn1
        · rw [setParentRefs_pn _ _ _ _ hm]
          exact hpn1

/-- C5: the upward copy-status invariant — whenever `is_copy` holds for a
node, it holds for every node in its parent set — is preserved by every proxy
operation: get/set/delete of attributes and items, call, and session exit.
`WFparents` (parent references point at nodes that exist in the store) holds
for every reachable state, since in Python the parent set holds references to
live proxy objects. -/
theorem claim_C5 (fuel : Nat) (op : POp) (st st' : St)
    (h : applyOp fuel op st = some st') (hwf : WFparents st) (hinv : Inv st) : Inv st' := by
  cases op with
  | getA pid key =>
      simp only [applyOp, Option.map_eq_some'] at h
      obtain ⟨r, hr, hst'⟩ := h
      subst hst'
      simp only [cowGetattr] at hr
      split at hr
      · exact absurd hr (by simp)
      · simp only [Option.bind_eq_some] at hr
        obtain ⟨nd, hnd, hmatch⟩ := hr
        split at hmatch
        · simp only [Option.some.injEq] at hmatch
          rw [← hmatch]
          exact hinv
        · simp only [Option.bind_eq_some, Option.some.injEq] at hmatch
          obtain ⟨obj, hobj, actual, hact, hres⟩ := hmatch
          rw [← hres]
          exact inv_append_noncopy
            { st with pn := (st.pn.set pid
                { nd with children := setKey nd.children key st.pn.length }) }
            ⟨actual, [(pid, key)], [], false, false⟩
            (wf_set_parents_sub st pid nd
              { nd with children := setKey nd.children key st.pn.length }
              hnd (fun p hp => hp) hwf) rfl
            (inv_set_mono st pid nd
              { nd with children := setKey nd.children key st.pn.length }
              hnd rfl (fun p hp => hp) hinv)
  | setA pid key v =>
      cases v with
      | addr a =>
          simp only [applyOp, cowSetattr] at h
          split at h
          · exact absurd h (by simp)
          · simp only [Option.bind_eq_some, Option.some.injEq] at h
            obtain ⟨nd, hnd, res, hres, st2, hcopy, nd2, hnd2, obj, hobj, hfin⟩ := h
            subst hres
            subst hfin
            exact inv_congr rfl (copyStep_inv fuel pid _ st2 hcopy
              (inv_invE _ pid (inv_set_mono st pid nd
                { nd with children := delKey nd.children key }
                hnd rfl (fun p hp => hp) hinv)))
      | prox pv =>
          simp only [applyOp, cowSetattr] at h
          split at h
          · exact absurd h (by simp)
          · simp only [Option.bind_eq_some, Option.some.injEq] at h
            obtain ⟨nd, hnd, res, ⟨pvnd, hpvnd, pvnd', hpvnd', hres⟩, st2, hcopy, nd2,
              hnd2, obj, hobj, hfin⟩ := h
            subst hres
            subst hfin
            exact inv_congr rfl (copyStep_inv fuel pid _ st2 hcopy
              (inv_set_addparent
                { st with pn := (st.pn.set pid
                    { nd with children := setKey nd.children key pv }) }
                pv pvnd' pid key hpvnd'
                (inv_set_mono st pid nd
                  { nd with children := setKey nd.children key pv }
                  hnd rfl (fun p hp => hp) hinv)))
  | delA pid key =>
      simp only [applyOp, cowDelattr] at h
      split at h
      · exact absurd h (by simp)
      · simp only [Option.bind_eq_some] at h
        obtain ⟨nd, hnd, st1, hst1, st2, hcopy, nd2, hnd2, obj, hobj, hm⟩ := h
        have hinv1 : Inv st1 := by
          split at hst1
          · next cid hcid =>
              simp only [Option.bind_eq_some, Option.some.injEq] at hst1
              obtain ⟨cnd, hcnd, heq⟩ := hst1
              rw [← heq]
              exact inv_set_mono
                { st with pn := (st.pn.set pid
                    { nd with children := delKey nd.children key }) }
                cid cnd { cnd with parents := dropPair cnd.parents (pid, key) } hcnd rfl
                (fun p hp => List.mem_of_mem_erase hp)
                (inv_set_mono st pid nd
                  { nd with children := delKey nd.children key }
                  hnd rfl (fun p hp => hp) hinv)
          · simp only [Option.some.injEq] at hst1
            rw [← hst1]
            exact hinv
        have hinv2 : Inv st2 := copyStep_inv fuel pid st1 st2 hcopy (inv_invE st1 pid hinv1)
        split at hm
        · exact absurd hm (by simp)
        · simp only [Option.some.injEq] at hm
          rw [← hm]
          exact inv_congr rfl hinv2
  | getI pid key =>
      simp only [applyOp, Option.map_eq_some'] at h
      obtain ⟨r, hr, hst'⟩ := h
      subst hst'
      simp only [cowGetitem] at hr
      simp only [Option.bind_eq_some] at hr
      obtain ⟨nd, hnd, hmatch⟩ := hr
      split at hmatch
      · simp only [Option.some.injEq] at hmatch
        rw [← hmatch]
        exact hinv
      · simp only [Option.bind_eq_some, Option.some.injEq] at hmatch
        obtain ⟨obj, hobj, actual, hact, hres⟩ := hmatch
        rw [← hres]
        exact inv_append_noncopy
          { st with pn := (st.pn.set pid
              { nd with children := setKey nd.children (itemCacheKey key) st.pn.length }) }
          ⟨actual, [(pid, itemCacheKey key)], [], false, false⟩
          (wf_set_parents_sub st pid nd
            { nd with children := setKey nd.children (itemCacheKey key) st.pn.length }
            hnd (fun p hp => hp) hwf) rfl
          (inv_set_mono st pid nd
            { nd with children := setKey nd.children (itemCacheKey key) st.pn.length }
            hnd rfl (fun p hp => hp) hinv)
  | setI pid key v =>
      simp only [applyOp, cowSetitem] at h
      simp only [Option.bind_eq_some, Option.some.injEq] at h
      obtain ⟨nd, hnd, actual, hact, st2, hcopy, nd2, hnd2, obj, hobj, hfin⟩ := h
      subst hfin
      exact inv_congr rfl (copyStep_inv fuel pid _ st2 hcopy
        (inv_invE _ pid (inv_set_mono st pid nd
          { nd with children := delKey nd.children (itemCacheKey key) }
          hnd rfl (fun p hp => hp) hinv)))
  | delI pid key =>
      simp only [applyOp, cowDelitem] at h
      simp only [Option.bind_eq_some] at h
      obtain ⟨nd, hnd, st1, hst1, st2, hcopy, nd2, hnd2, obj, hobj, hm⟩ := h
      have hinv1 : Inv st1 := by
        split at hst1
        · next cid hcid =>
            simp only [Option.bind_eq_some, Option.some.injEq] at hst1
            obtain ⟨cnd, hcnd, heq⟩ := hst1
            rw [← heq]
            exact inv_set_mono
              { st with pn := (st.pn.set pid
                  { nd with children := delKey nd.children (itemCacheKey key) }) }
              cid cnd { cnd with parents := dropPair cnd.parents (pid, itemCacheKey key) }
              hcnd rfl (fun p hp => List.mem_of_mem_erase hp)
              (inv_set_mono st pid nd
                { nd with children := delKey nd.children (itemCacheKey key) }
                hnd rfl (fun p hp => hp) hinv)
        · simp only [Option.some.injEq] at hst1
          rw [← hst1]
          exact hinv
      have hinv2 : Inv st2 := copyStep_inv fuel pid st1 st2 hcopy (inv_invE st1 pid hinv1)
      split at hm
      · exact absurd hm (by simp)
      · simp only [Option.some.injEq] at hm
        rw [← hm]
        exact inv_congr rfl hinv2
  | call pid res =>
      simp only [applyOp, cowCall] at h
      simp only [Option.bind_eq_some, Option.some.injEq] at h
      obtain ⟨nd, hnd, st2, hfold, hfin⟩ := h
      subst hfin
      have hinvM : Inv (markFinalized nd.parents st) := markFinalized_inv nd.parents st hinv
      have hwfM : WFparents (markFinalized nd.parents st) := markFinalized_wf nd.parents st hwf
      have hshape : PnShape (markFinalized nd.parents st) st2 :=
        foldParents_shape _ (copyStep_shape fuel) nd.parents _ st2 hfold
      have hlen2 : st2.pn.length = st.pn.length := by
        rw [hshape.1, markFinalized_len]
      have hinv2 : Inv st2 := by
        refine invE_inv st2 st.pn.length
          (foldParents_invE fuel st.pn.length
            (fun p s s' hc hi => copyStep_invE fuel p s s' st.pn.length hc hi)
            nd.parents _ st2 hfold (inv_invE _ _ hinvM)) ?_
        intro pnd hp
        rw [List.getElem?_eq_none (by omega)] at hp
        exact absurd hp (by simp)
      have hwf2 : WFparents st2 := pnShape_wf hshape hwfM
      exact inv_append_noncopy st2 ⟨res, [], [], false, false⟩ hwf2 rfl hinv2
  | exit pid =>
      simp only [applyOp] at h
      exact inv_congr (cowExit_pn fuel pid st st' h) hinv

theorem claim_C5_witness :
    applyOp 2 (.setA 0 "k" (.prox 1)) wSt = some wOutA ∧
    WFparents wSt ∧ Inv wSt ∧ Inv wOutA :=
  ⟨rfl, by decide, by decide,
   claim_C5 2 (.setA 0 "k" (.prox 1)) wSt wOutA rfl (by decide) (by decide)⟩

/-! ## The nested write `proxy.a.b = v` over an arbitrary heap -/

theorem c1_getattr (hp : List Obj) (r : Nat) (ro : Obj) (aA : Nat)
    (h1 : hp[r]? = some ro) (h2 : lookupKey ro.attrs "a" = some aA) :
    cowGetattr 0 "a" (mkInit hp r) =
      some ({ heap := hp,
              pn := [⟨r, [], [("a", 1)], false, false⟩,
                     ⟨aA, [(0, "a")], [], false, false⟩] }, 1) := by
  rw [cowGetattr, if_neg (by decide)]
  simp only [mkInit, List.getElem?_cons_zero, Option.some_bind, lookupKey]
  rw [h1, Option.some_bind, h2, Option.some_bind]
  simp [List.set_cons_zero, setKey]

theorem c1_copy (hp : List Obj) (r : Nat) (ro : Obj) (aA : Nat) (ao : Obj)
    (h1 : hp[r]? = some ro) (h3 : hp[aA]? = some ao) :
    copyStep 2 1
      { heap := hp,
        pn := [⟨r, [], [("a", 1)], false, false⟩, ⟨aA, [(0, "a")], [], false, false⟩] } =
      some { heap := ((hp ++ [ro]) ++ [ao]).set hp.length (setAttrObj ro "a" (hp.length + 1)),
             pn := [⟨hp.length, [], [("a", 1)], true, false⟩,
                    ⟨hp.length + 1, [(0, "a")], [], true, false⟩] } := by
  have haA : aA < hp.length := getElem?_lt _ _ _ h3
  simp only [show copyStep 2 = copyStepF (copyStep 1) from rfl,
    show copyStep 1 = copyStepF (copyStep 0) from rfl,
    copyStepF, foldParents, setParentRefs,
    List.getElem?_cons_succ, List.getElem?_cons_zero, Option.some_bind,
    Bool.false_eq_true, if_false,
    List.set_cons_zero, List.set_cons_succ,
    h1, List.getElem?_append_left haA, h3,
    List.getElem?_append_left (show hp.length < (hp ++ [ro]).length by simp),
    List.getElem?_concat_length,
    List.length_append, List.length_cons, List.length_nil]

theorem c1_setattr (hp : List Obj) (r v : Nat) (ro : Obj) (aA : Nat) (ao : Obj)
    (h1 : hp[r]? = some ro) (h3 : hp[aA]? = some ao) :
    cowSetattr 2 1 "b" (.addr v)
      { heap := hp,
        pn := [⟨r, [], [("a", 1)], false, false⟩, ⟨aA, [(0, "a")], [], false, false⟩] } =
      some { heap := (((hp ++ [ro]) ++ [ao]).set hp.length
                (setAttrObj ro "a" (hp.length + 1))).set (hp.length + 1)
                (setAttrObj ao "b" v),
             pn := [⟨hp.length, [], [("a", 1)], true, false⟩,
                    ⟨hp.length + 1, [(0, "a")], [], true, false⟩] } := by
  rw [cowSetattr, if_neg (by decide)]
  simp only [List.getElem?_cons_succ, List.getElem?_cons_zero, Option.some_bind, delKey,
    List.set_cons_zero, List.set_cons_succ]
  rw [c1_copy hp r ro aA ao h1 h3, Option.some_bind]
  simp only [List.getElem?_cons_succ, List.getElem?_cons_zero, Option.some_bind]
  rw [List.getElem?_set_ne (by omega)]
  rw [show ((hp ++ [ro]) ++ [ao])[hp.length + 1]? = some ao from by
        rw [show hp.length + 1 = (hp ++ [ro]).length by simp]
        exact List.getElem?_concat_length _ _]
  rw [Option.some_bind]

/-- `obj.a.b` read off the heap: the address at attribute `a` of the object at
`root`, then attribute `b` of the object at that address. -/
def readAB (heap : List Obj) (root : Nat) : Option Nat :=
  (heap[root]?).bind fun o =>
  (lookupKey o.attrs "a").bind fun a =>
  (heap[a]?).bind fun o2 =>
  lookupKey o2.attrs "b"

/-- C1: for every object graph (arbitrary heap `hp`, root `r` with attribute
`a` at address `aA` whose object has attribute `b` with value `w`), performing
`proxy.a.b = v` through a fresh proxy succeeds, the original root's `a.b` is
unchanged (the objects at `r` and `aA` are untouched and reading `a.b` from
`r` still gives `w`), and the proxy's current wrapped value has `a.b = v`. -/
theorem claim_C1 (hp : List Obj) (r v : Nat) (ro : Obj) (aA : Nat) (ao : Obj) (w : Nat)
    (h1 : hp[r]? = some ro) (h2 : lookupKey ro.attrs "a" = some aA)
    (h3 : hp[aA]? = some ao) (h4 : lookupKey ao.attrs "b" = some w) :
    ∃ st1 st2 : St,
      cowGetattr 0 "a" (mkInit hp r) = some (st1, 1) ∧
      cowSetattr 2 1 "b" (.addr v) st1 = some st2 ∧
      st2.heap[r]? = some ro ∧ st2.heap[aA]? = some ao ∧
      readAB st2.heap r = some w ∧
      ∃ nd : PNode, st2.pn[0]? = some nd ∧ readAB st2.heap nd.wrapped = some v := by
  have hr : r < hp.length := getElem?_lt _ _ _ h1
  have haA : aA < hp.length := getElem?_lt _ _ _ h3
  have hA : ((((hp ++ [ro]) ++ [ao]).set hp.length
      (setAttrObj ro "a" (hp.length + 1))).set (hp.length + 1) (setAttrObj ao "b" v))[r]? =
      some ro := by
    rw [List.getElem?_set_ne (by omega), List.getElem?_set_ne (by omega),
      List.getElem?_append_left (show r < (hp ++ [ro]).length by simp; omega),
      List.getElem?_append_left hr, h1]
  have hB : ((((hp ++ [ro]) ++ [ao]).set hp.length
      (setAttrObj ro "a" (hp.length + 1))).set (hp.length + 1) (setAttrObj ao "b" v))[aA]? =
      some ao := by
    rw [List.getElem?_set_ne (by omega), List.getElem?_set_ne (by omega),
      List.getElem?_append_left (show aA < (hp ++ [ro]).length by simp; omega),
      List.getElem?_append_left haA, h3]
  have hC : ((((hp ++ [ro]) ++ [ao]).set hp.length
      (setAttrObj ro "a" (hp.length + 1))).set (hp.length + 1)
        (setAttrObj ao "b" v))[hp.length]? = some (setAttrObj ro "a" (hp.length + 1)) := by
    rw [List.getElem?_set_ne (by omega), List.getElem?_set_self (by simp)]
  have hD : ((((hp ++ [ro]) ++ [ao]).set hp.length
      (setAttrObj ro "a" (hp.length + 1))).set (hp.length + 1)
        (setAttrObj ao "b" v))[hp.length + 1]? = some (setAttrObj ao "b" v) := by
    rw [List.getElem?_set_self (by simp)]
  refine ⟨_, _, c1_getattr hp r ro aA h1 h2, c1_setattr hp r v ro aA ao h1 h3,
    hA, hB, ?_, ?_⟩
  · simp only [readAB]
    rw [hA, Option.some_bind, h2, Option.some_bind, hB, Option.some_bind]
    exact h4
  · refine ⟨⟨hp.length, [], [("a", 1)], true, false⟩, by simp, ?_⟩
    simp only [readAB]
    rw [hC, Option.some_bind]
    rw [show lookupKey (setAttrObj ro "a" (hp.length + 1)).attrs "a" =
          some (hp.length + 1) from lookupKey_setKey_self _ _ _,
      Option.some_bind, hD, Option.some_bind]
    exact lookupKey_setKey_self _ _ _

theorem claim_C1_witness :
    ∃ st1 st2 : St,
      cowGetattr 0 "a" (mkInit [⟨[("a", 1)], [], none⟩, ⟨[("b", 2)], [], none⟩] 0) =
        some (st1, 1) ∧
      cowSetattr 2 1 "b" (.addr 9) st1 = some st2 ∧
      st2.heap[0]? = some ⟨[("a", 1)], [], none⟩ ∧
      st2.heap[1]? = some ⟨[("b", 2)], [], none⟩ ∧
      readAB st2.heap 0 = some 2 ∧
      ∃ nd : PNode, st2.pn[0]? = some nd ∧ readAB st2.heap nd.wrapped = some 9 :=
  claim_C1 [⟨[("a", 1)], [], none⟩, ⟨[("b", 2)], [], none⟩] 0 9 ⟨[("a", 1)], [], none⟩ 1
    ⟨[("b", 2)], [], none⟩ 2 (by decide) (by decide) (by decide) (by decide)

/-! ## Read chains through the proxy -/

/-- One read through the proxy: an attribute access or an item access. -/
inductive RKey where
  | attr (k : String)
  | item (k : String)
deriving Repr, DecidableEq

def readOp : RKey → Nat → St → Option (St × Nat)
  | .attr k, pid, st => cowGetattr pid k st
  | .item k, pid, st => cowGetitem pid k st

/-- `proxy.k1.k2[k3]...`: follow a chain of reads from node `pid`, each read
continuing from the child wrapper returned by the previous one. -/
def readChain : List RKey → Nat → St → Option (St × Nat)
  | [], pid, st => some (st, pid)
  | k :: ks, pid, st => (readOp k pid st).bind fun r => readChain ks r.2 r.1

/-- A single read never touches the heap, never changes any existing node's
`wrapped` or `is_copy`, and any node it creates has `is_copy` false. -/
theorem readOp_pres (k : RKey) (pid : Nat) (st st' : St) (cid : Nat)
    (h : readOp k pid st = some (st', cid)) :
    st'.heap = st.heap ∧
    (∀ (i : Nat) (nd : PNode), st.pn[i]? = some nd → ∃ nd' : PNode,
        st'.pn[i]? = some nd' ∧ nd'.wrapped = nd.wrapped ∧ nd'.is_copy = nd.is_copy) ∧
    (∀ (i : Nat) (nd' : PNode), st.pn.length ≤ i → st'.pn[i]? = some nd' →
        nd'.is_copy = false) := by
  have main : ∀ (nd : PNode) (key ck : String) (actual : Nat),
      st.pn[pid]? = some nd →
      st' = { st with
              pn := (st.pn.set pid { nd with children := setKey nd.children ck st.pn.length }) ++
                [⟨actual, [(pid, ck)], [], false, false⟩] } →
      st'.heap = st.heap ∧
      (∀ (i : Nat) (nd : PNode), st.pn[i]? = some nd → ∃ nd' : PNode,
          st'.pn[i]? = some nd' ∧ nd'.wrapped = nd.wrapped ∧ nd'.is_copy = nd.is_copy) ∧
      (∀ (i : Nat) (nd' : PNode), st.pn.length ≤ i → st'.pn[i]? = some nd' →
          nd'.is_copy = false) := by
    intro nd key ck actual hnd hst'
    subst hst'
    refine ⟨rfl, ?_, ?_⟩
    · intro i ni hi
      have hilt : i < st.pn.length := getElem?_lt _ _ _ hi
      by_cases hip : i = pid
      · subst hip
        rw [hnd] at hi
        cases hi
        refine ⟨{ nd with children := setKey nd.children ck st.pn.length }, ?_, rfl, rfl⟩
        rw [List.getElem?_append_left (by simpa using hilt), List.getElem?_set_self hilt]
      · refine ⟨ni, ?_, rfl, rfl⟩
        rw [List.getElem?_append_left (by simpa using hilt),
          List.getElem?_set_ne (fun he => hip he.symm), hi]
    · intro i nd' hge hi
      rw [List.getElem?_append_right (by simpa using hge)] at hi
      simp only [List.length_set] at hi
      rcases Nat.lt_or_ge (i - st.pn.length) 1 with hlt | hge2
      · interval_cases h : i - st.pn.length
        · simp only [List.getElem?_cons_zero, Option.some.injEq] at hi
          rw [← hi]
      · rw [List.getElem?_eq_none (by simpa using hge2)] at hi
        exact absurd hi (by simp)
  cases k with
  | attr key =>
      simp only [readOp, cowGetattr] at h
      split at h
      · exact absurd h (by simp)
      · simp only [Option.bind_eq_some] at h
        obtain ⟨nd, hnd, hmatch⟩ := h
        split at hmatch
        · simp only [Option.some.injEq, Prod.mk.injEq] at hmatch
          obtain ⟨hst, -⟩ := hmatch
          subst hst
          refine ⟨rfl, fun i ni hi => ⟨ni, hi, rfl, rfl⟩, fun i nd' hge hi => ?_⟩
          rw [List.getElem?_eq_none hge] at hi
          exact absurd hi (by simp)
        · simp only [Option.bind_eq_some, Option.some.injEq, Prod.mk.injEq] at hmatch
          obtain ⟨obj, hobj, actual, hact, hst, -⟩ := hmatch
          exact main nd key key actual hnd hst.symm
  | item key =>
      simp only [readOp, cowGetitem] at h
      simp only [Option.bind_eq_some] at h
      obtain ⟨nd, hnd, hmatch⟩ := h
      split at hmatch
      · simp only [Option.some.injEq, Prod.mk.injEq] at hmatch
        obtain ⟨hst, -⟩ := hmatch
        subst hst
        refine ⟨rfl, fun i ni hi => ⟨ni, hi, rfl, rfl⟩, fun i nd' hge hi => ?_⟩
        rw [List.getElem?_eq_none hge] at hi
        exact absurd hi (by simp)
      · simp only [Option.bind_eq_some, Option.some.injEq, Prod.mk.injEq] at hmatch
        obtain ⟨obj, hobj, actual, hact, hst, -⟩ := hmatch
        exact main nd key (itemCacheKey key) actual hnd hst.symm

/-- Chained reads preserve the heap, existing nodes' `wrapped`/`is_copy`, and
create only non-copy nodes. -/
theorem readChain_pres (ks : List RKey) (pid : Nat) (st st' : St) (cid : Nat)
    (h : readChain ks pid st = some (st', cid)) :
    st'.heap = st.heap ∧
    (∀ (i : Nat) (nd : PNode), st.pn[i]? = some nd → ∃ nd' : PNode,
        st'.pn[i]? = some nd' ∧ nd'.wrapped = nd.wrapped ∧ nd'.is_copy = nd.is_copy) ∧
    (∀ (i : Nat) (nd' : PNode), st.pn.length ≤ i → st'.pn[i]? = some nd' →
        nd'.is_copy = false) := by
  induction ks generalizing pid st with
  | nil =>
      simp only [readChain, Option.some.injEq, Prod.mk.injEq] at h
      obtain ⟨hst, -⟩ := h
      subst hst
      refine ⟨rfl, fun i ni hi => ⟨ni, hi, rfl, rfl⟩, fun i nd' hge hi => ?_⟩
      rw [List.getElem?_eq_none hge] at hi
      exact absurd hi (by simp)
  | cons k ks ih =>
      simp only [readChain, Option.bind_eq_some] at h
      obtain ⟨r, hr, hrest⟩ := h
      obtain ⟨hheap1, hold1, hnew1⟩ := readOp_pres k pid st r.1 r.2 (by rw [hr])
      obtain ⟨hheap2, hold2, hnew2⟩ := ih r.2 r.1 hrest
      have hlen1 : st.pn.length ≤ r.1.pn.length := by
        by_contra hcon
        push_neg at hcon
        obtain ⟨nd', hnd', -, -⟩ := hold1 r.1.pn.length _
          (List.getElem?_eq_getElem (l := st.pn) hcon)
        rw [List.getElem?_eq_none (le_refl _)] at hnd'
        exact absurd hnd' (by simp)
      refine ⟨hheap2.trans hheap1, ?_, ?_⟩
      · intro i ni hi
        obtain ⟨n1, hn1, hw1, hc1⟩ := hold1 i ni hi
        obtain ⟨n2, hn2, hw2, hc2⟩ := hold2 i n1 hn1
        exact ⟨n2, hn2, hw2.trans hw1, hc2.trans hc1⟩
      · intro i nd' hge hi
        rcases Nat.lt_or_ge i r.1.pn.length with hlt | hge2
        · obtain ⟨n1, hn1⟩ : ∃ n1 : PNode, r.1.pn[i]? = some n1 :=
            ⟨_, List.getElem?_eq_getElem hlt⟩
          obtain ⟨n2, hn2, -, hc2⟩ := hold2 i n1 hn1
          rw [hi] at hn2
          cases hn2
          rw [hc2]
          exact hnew1 i n1 hge hn1
        · exact hnew2 i nd' hge2 hi

/-- C2: reading any chain of attributes or items through a proxy whose nodes
are all non-copies mutates nothing — the heap (hence the original root object
graph) is unchanged, `is_copy` stays false for every node, and no existing
node's wrapped value is replaced. -/
theorem claim_C2 :
    ∀ (ks : List RKey) (pid : Nat) (st st' : St) (cid : Nat),
      readChain ks pid st = some (st', cid) →
      (∀ nd ∈ st.pn, nd.is_copy = false) →
      st'.heap = st.heap ∧
      (∀ nd' ∈ st'.pn, nd'.is_copy = false) ∧
      (∀ (i : Nat) (nd : PNode), st.pn[i]? = some nd → ∃ nd' : PNode,
          st'.pn[i]? = some nd' ∧ nd'.wrapped = nd.wrapped) := by
  intro ks pid st st' cid h hall
  obtain ⟨hheap, hold, hnew⟩ := readChain_pres ks pid st st' cid h
  refine ⟨hheap, ?_, fun i nd hi => ?_⟩
  · intro nd' hmem
    obtain ⟨i, hi, hie⟩ := List.getElem_of_mem hmem
    have hi? : st'.pn[i]? = some nd' := by rw [List.getElem?_eq_getElem hi, hie]
    rcases Nat.lt_or_ge i st.pn.length with hlt | hge
    · obtain ⟨n1, hn1⟩ : ∃ n1 : PNode, st.pn[i]? = some n1 :=
        ⟨_, List.getElem?_eq_getElem hlt⟩
      obtain ⟨n2, hn2, -, hc⟩ := hold i n1 hn1
      rw [hi?] at hn2
      cases hn2
      rw [hc]
      exact hall n1 (List.getElem?_mem hn1)
    · exact hnew i nd' hge hi?
  · obtain ⟨nd', h1, h2, -⟩ := hold i nd hi
    exact ⟨nd', h1, h2⟩

/-- A three-object heap (root with attribute `a`, whose value holds item `0`)
used to witness `claim_C2`. -/
def wcHeap : List Obj := [⟨[("a", 1)], [], none⟩, ⟨[], [("0", 2)], none⟩, ⟨[], [], none⟩]

/-- The proxy store after the two witness reads `cow.a["0"]`. -/
def wcOut : St :=
  { heap := wcHeap,
    pn := [⟨0, [], [("a", 1)], false, false⟩,
           ⟨1, [(0, "a")], [("__item_0", 2)], false, false⟩,
           ⟨2, [(1, "__item_0")], [], false, false⟩] }

/-- Intermediate state after the first witness read `cow.a`. -/
def wcMid : St :=
  { heap := wcHeap,
    pn := [⟨0, [], [("a", 1)], false, false⟩, ⟨1, [(0, "a")], [], false, false⟩] }

theorem claim_C2_witness :
    wcOut.heap = (mkInit wcHeap 0).heap ∧
    (∀ nd' ∈ wcOut.pn, nd'.is_copy = false) ∧
    (∀ (i : Nat) (nd : PNode), (mkInit wcHeap 0).pn[i]? = some nd → ∃ nd' : PNode,
        wcOut.pn[i]? = some nd' ∧ nd'.wrapped = nd.wrapped) := by
  have hrun : readChain [.attr "a", .item "0"] 0 (mkInit wcHeap 0) = some (wcOut, 2) := by
    have e1 : readOp (.attr "a") 0 (mkInit wcHeap 0) = some (wcMid, 1) := rfl
    have e2 : readOp (.item "0") 1 wcMid = some (wcOut, 2) := rfl
    simp only [readChain]
    rw [e1, Option.some_bind, e2, Option.some_bind]
  exact claim_C2 [.attr "a", .item "0"] 0 (mkInit wcHeap 0) wcOut 2 hrun (by decide)

/-! ## Repeated writes to the root node (single-copy-per-node) -/

/-- One mutating operation on the root proxy node with a plain (non-proxy)
value: a set-attribute or a set-item write. -/
inductive WOp where
  | wA (key : String) (a : Nat)
  | wI (key : String) (a : Nat)
deriving Repr, DecidableEq

def applyW : WOp → St → Option St
  | .wA key a, st => cowSetattr 1 0 key (.addr a) st
  | .wI key a, st => cowSetitem 1 0 key (.addr a) st

def doRootWrites : List WOp → St → Option St
  | [], st => some st
  | w :: ws, st => (applyW w st).bind fun st' => doRootWrites ws st'

/-- A write to an already-copied root node allocates nothing: the heap keeps
its length and the node stays a copy. -/
theorem applyW_copied (w : WOp) (st st' : St) (nd : PNode)
    (hnd : st.pn[0]? = some nd) (hc : nd.is_copy = true)
    (h : applyW w st = some st') :
    st'.heap.length = st.heap.length ∧
    ∃ nd' : PNode, st'.pn[0]? = some nd' ∧ nd'.is_copy = true := by
  have hlt : 0 < st.pn.length := getElem?_lt _ _ _ hnd
  cases w with
  | wA key a =>
      simp only [applyW, cowSetattr] at h
      split at h
      · exact absurd h (by simp)
      · simp only [Option.bind_eq_some, Option.some.injEq] at h
        obtain ⟨nd0, hnd0, res, hres, st2, hcopy, nd2, hnd2, obj, hobj, hfin⟩ := h
        rw [hnd] at hnd0
        cases hnd0
        subst hres
        dsimp only at hcopy hfin
        have hst2 := copyStep_already 1 0 _ st2
          { nd with children := delKey nd.children key }
          (List.getElem?_set_self hlt) hc hcopy
        subst hst2
        subst hfin
        rw [List.getElem?_set_self (show 0 < (st.pn).length from hlt)] at hnd2
        cases hnd2
        exact ⟨by simp, { nd with children := delKey nd.children key },
          List.getElem?_set_self hlt, hc⟩
  | wI key a =>
      simp only [applyW, cowSetitem] at h
      simp only [Option.bind_eq_some, Option.some.injEq] at h
      obtain ⟨nd0, hnd0, actual, hact, st2, hcopy, nd2, hnd2, obj, hobj, hfin⟩ := h
      rw [hnd] at hnd0
      cases hnd0
      have hst2 := copyStep_already 1 0 _ st2
        { nd with children := delKey nd.children (itemCacheKey key) }
        (List.getElem?_set_self hlt) hc hcopy
      subst hst2
      subst hfin
      rw [List.getElem?_set_self (show 0 < (st.pn).length from hlt)] at hnd2
      cases hnd2
      exact ⟨by simp, { nd with children := delKey nd.children (itemCacheKey key) },
        List.getElem?_set_self hlt, hc⟩

/-- The first write to a fresh root proxy performs exactly one shallow copy:
the heap grows by exactly one cell and the root becomes a copy. -/
theorem applyW_fresh (w : WOp) (hp : List Obj) (r : Nat) (st' : St)
    (h : applyW w (mkInit hp r) = some st') :
    st'.heap.length = hp.length + 1 ∧
    ∃ nd' : PNode, st'.pn[0]? = some nd' ∧ nd'.is_copy = true := by
  cases w with
  | wA key a =>
      simp only [applyW, cowSetattr] at h
      split at h
      · exact absurd h (by simp)
      · simp only [Option.bind_eq_some, Option.some.injEq] at h
        obtain ⟨nd0, hnd0, res, hres, st2, hcopy, nd2, hnd2, obj, hobj, hfin⟩ := h
        simp only [mkInit, List.getElem?_cons_zero, Option.some.injEq] at hnd0
        subst hnd0
        subst hres
        simp only [copyStep, copyStepF, mkInit, List.set_cons_zero, delKey,
          List.getElem?_cons_zero, Option.some_bind, Bool.false_eq_true, if_false,
          foldParents, Option.bind_eq_some, Option.some.injEq] at hcopy
        obtain ⟨obj0, hobj0, hsp⟩ := hcopy
        simp only [setParentRefs, Option.some.injEq] at hsp
        subst hsp
        subst hfin
        simp only [List.set_cons_zero, List.getElem?_cons_zero, Option.some.injEq] at hnd2
        subst hnd2
        refine ⟨by simp, ?_⟩
        refine ⟨⟨hp.length, [], [], true, false⟩, by simp [List.set_cons_zero], rfl⟩
  | wI key a =>
      simp only [applyW, cowSetitem] at h
      simp only [Option.bind_eq_some, Option.some.injEq] at h
      obtain ⟨nd0, hnd0, actual, hact, st2, hcopy, nd2, hnd2, obj, hobj, hfin⟩ := h
      simp only [mkInit, List.getElem?_cons_zero, Option.some.injEq] at hnd0
      subst hnd0
      simp only [copyStep, copyStepF, mkInit, List.set_cons_zero, delKey,
        List.getElem?_cons_zero, Option.some_bind, Bool.false_eq_true, if_false,
        foldParents, Option.bind_eq_some, Option.some.injEq] at hcopy
      obtain ⟨obj0, hobj0, hsp⟩ := hcopy
      simp only [setParentRefs, Option.some.injEq] at hsp
      subst hsp
      subst hfin
      simp only [List.set_cons_zero, List.getElem?_cons_zero, Option.some.injEq] at hnd2
      subst hnd2
      refine ⟨by simp, ?_⟩
      refine ⟨⟨hp.length, [], [], true, false⟩, by simp [List.set_cons_zero], rfl⟩

/-- Once the root is a copy, any further successful writes keep the heap
length and the copy mark. -/
theorem doRootWrites_copied (ws : List WOp) (st st' : St) (nd : PNode)
    (hnd : st.pn[0]? = some nd) (hc : nd.is_copy = true)
    (h : doRootWrites ws st = some st') :
    st'.heap.length = st.heap.length ∧
    ∃ nd' : PNode, st'.pn[0]? = some nd' ∧ nd'.is_copy = true := by
  induction ws generalizing st nd with
  | nil =>
      simp only [doRootWrites, Option.some.injEq] at h
      subst h
      exact ⟨rfl, nd, hnd, hc⟩
  | cons w ws ih =>
      simp only [doRootWrites, Option.bind_eq_some] at h
      obtain ⟨st1, h1, hrest⟩ := h
      obtain ⟨hlen, nd1, hnd1, hc1⟩ := applyW_copied w st st1 nd hnd hc h1
      obtain ⟨hlen', hres⟩ := ih st1 nd1 hnd1 hc1 hrest
      exact ⟨hlen'.trans hlen, hres⟩

/-- C4: the copy step is idempotent and memoized.  (i) `_copy` on a node whose
`is_copy` flag is already set changes nothing at all (the whole machine state
is returned unchanged).  (ii) Every successful `_copy` leaves its target node
marked `is_copy`, so by (i) any node's wrapped value is shallow-copied at most
once over its lifetime, whatever operations trigger the copies.  (iii)
Performing N ≥ 1 mutating operations (attribute or item writes) on the root
node of a fresh proxy triggers exactly one underlying shallow copy: the heap
gains exactly one cell, and the node is marked as a copy. -/
theorem claim_C4 :
    (∀ (fuel pid : Nat) (st st' : St) (nd : PNode),
        st.pn[pid]? = some nd → nd.is_copy = true →
        copyStep fuel pid st = some st' → st' = st) ∧
    (∀ (fuel pid : Nat) (st st' : St) (nd' : PNode),
        copyStep fuel pid st = some st' → st'.pn[pid]? = some nd' →
        nd'.is_copy = true) ∧
    (∀ (ws : List WOp) (hp : List Obj) (r : Nat) (st' : St),
        ws ≠ [] → doRootWrites ws (mkInit hp r) = some st' →
        st'.heap.length = hp.length + 1 ∧
        ∃ nd : PNode, st'.pn[0]? = some nd ∧ nd.is_copy = true) := by
  refine ⟨?_, ?_, ?_⟩
  · intro fuel pid st st' nd hnd hc h
    exact copyStep_already fuel pid st st' nd hnd hc h
  · intro fuel pid st st' nd' h hnd'
    exact copyStep_copied fuel pid st st' h nd' hnd'
  · intro ws hp r st' hne h
    cases ws with
    | nil => exact absurd rfl hne
    | cons w ws =>
        simp only [doRootWrites, Option.bind_eq_some] at h
        obtain ⟨st1, h1, hrest⟩ := h
        obtain ⟨hlen, nd1, hnd1, hc1⟩ := applyW_fresh w hp r st1 h1
        obtain ⟨hlen', hres⟩ := doRootWrites_copied ws st1 st' nd1 hnd1 hc1 hrest
        exact ⟨hlen'.trans hlen, hres⟩

/-- State after the first witness write. -/
def wrSt1 : St :=
  { heap := [⟨[("k", 1)], [("0", 1)], none⟩, ⟨[("k", 5)], [("0", 1)], none⟩],
    pn := [⟨1, [], [], true, false⟩] }

/-- State after the second witness write: no further heap cell. -/
def wrSt2 : St :=
  { heap := [⟨[("k", 1)], [("0", 1)], none⟩, ⟨[("k", 5)], [("0", 6)], none⟩],
    pn := [⟨1, [], [], true, false⟩] }

theorem claim_C4_witness :
    wOutB = wOutB ∧
    (⟨1, [], [], true, false⟩ : PNode).is_copy = true ∧
    (wrSt2.heap.length = 1 + 1 ∧
      ∃ nd : PNode, wrSt2.pn[0]? = some nd ∧ nd.is_copy = true) := by
  have hrun : doRootWrites [.wA "k" 5, .wI "0" 6]
      (mkInit [⟨[("k", 1)], [("0", 1)], none⟩] 0) = some wrSt2 := by
    have e1 : applyW (.wA "k" 5) (mkInit [⟨[("k", 1)], [("0", 1)], none⟩] 0) =
        some wrSt1 := rfl
    have e2 : applyW (.wI "0" 6) wrSt1 = some wrSt2 := rfl
    simp only [doRootWrites]
    rw [e1, Option.some_bind, e2, Option.some_bind]
  refine ⟨claim_C4.1 1 0 wOutB wOutB ⟨2, [], [], true, false⟩ rfl rfl rfl, ?_, ?_⟩
  · exact claim_C4.2.1 1 0 (mkInit [⟨[("k", 1)], [("0", 1)], none⟩] 0)
      { heap := [⟨[("k", 1)], [("0", 1)], none⟩, ⟨[("k", 1)], [("0", 1)], none⟩],
        pn := [⟨1, [], [], true, false⟩] }
      ⟨1, [], [], true, false⟩ rfl rfl
  · exact claim_C4.2.2 [.wA "k" 5, .wI "0" 6] [⟨[("k", 1)], [("0", 1)], none⟩] 0 wrSt2
      (by decide) hrun

/-- C9 counterexample: the claimed recurse-iff-not-excluded-and-includable
equivalence fails at the empty path.  With `exclude = {"**"}` the empty path
is matched by an exclude pattern (`"**"` matches every path), yet
`should_recurse_for_patterns` returns true, because the source returns before
consulting either pattern set when the path is empty. -/
theorem claim_C9_counterexample :
    ¬ (shouldRecurseForPatterns [] none ["**"] = true ↔
        ((∀ p ∈ (["**"] : List String), ¬ pathMatchesPattern (joinDots []) p = true) ∧
          ((none : Option (List String)) = none ∨
            ∃ (l : List String) (p : String), (none : Option (List String)) = some l ∧
              p ∈ l ∧ couldPathLeadToPattern (joinDots []) p = true))) := by
  intro hiff
  obtain ⟨hall, -⟩ := hiff.mp (by decide)
  exact absurd (show pathMatchesPattern (joinDots []) "**" = true by decide)
    (hall "**" (by decide))

/-- C9 (amended): for every *non-empty* path, the filtering predicate recurses
into the path iff the path is not matched by any exclude pattern and (the
include set is absent, or the path could lead to at least one include
pattern); in particular, with include `{"embeddings"}` and exclude
`{"embeddings.raw"}`, recursion is allowed into `("embeddings", "clip")` and
denied into `("embeddings", "raw")`. -/
theorem claim_C9 :
    (∀ (path : List String) (inc : Option (List String)) (exclude : List String),
        path ≠ [] →
        (shouldRecurseForPatterns path inc exclude = true ↔
          ((∀ p ∈ exclude, ¬ pathMatchesPattern (joinDots path) p = true) ∧
            (inc = none ∨
              ∃ (l : List String) (p : String), inc = some l ∧ p ∈ l ∧
                couldPathLeadToPattern (joinDots path) p = true)))) ∧
    shouldRecurseForPatterns ["embeddings", "clip"] (some ["embeddings"]) ["embeddings.raw"] = true ∧
    shouldRecurseForPatterns ["embeddings", "raw"] (some ["embeddings"]) ["embeddings.raw"] = false := by
  refine ⟨?_, by decide, by decide⟩
  intro path inc exclude hne
  rw [shouldRecurseForPatterns, if_neg hne]
  by_cases hex : exclude.any (fun p => pathMatchesPattern (joinDots path) p) = true
  · rw [if_pos hex]
    simp only [List.any_eq_true] at hex
    obtain ⟨p, hp, hm⟩ := hex
    constructor
    · intro hfalse; exact absurd hfalse (by simp)
    · rintro ⟨hall, -⟩
      exact absurd hm (hall p hp)
  · rw [if_neg hex]
    simp only [List.any_eq_true, not_exists, not_and] at hex
    cases inc with
    | none =>
        constructor
        · intro _; exact ⟨fun p hp => hex p hp, Or.inl rfl⟩
        · intro _; rfl
    | some incs =>
        constructor
        · intro hany
          simp only [List.any_eq_true] at hany
          obtain ⟨p, hp, hc⟩ := hany
          exact ⟨fun q hq => hex q hq, Or.inr ⟨incs, p, rfl, hp, hc⟩⟩
        · rintro ⟨-, hinc | ⟨l, p, hl, hp, hc⟩⟩
          · exact absurd hinc (by simp)
          · cases Option.some.inj hl
            simp only [List.any_eq_true]
            exact ⟨p, hp, hc⟩

theorem claim_C9_witness :
    shouldRecurseForPatterns ["a"] none ["b"] = true ↔
      ((∀ p ∈ (["b"] : List String), ¬ pathMatchesPattern (joinDots ["a"]) p = true) ∧
        ((none : Option (List String)) = none ∨
          ∃ (l : List String) (p : String), (none : Option (List String)) = some l ∧
            p ∈ l ∧ couldPathLeadToPattern (joinDots ["a"]) p = true)) :=
  claim_C9.1 ["a"] none ["b"] (by decide)

end Configgle
